import Mathlib

/-!
Verification development for `artificial_anneal.py` (Trap-Analysis).

The file shallowly embeds the numeric core of the module:
the coordinate codec (`r2xy`, `xy2r`), the unconstrained energy model
(`ElectrostaticPotential`: `Vee`, `Vtotal`, `grad_Vee`, `grad_total`),
the periodic resonator variant (`ResonatorSolver`: `map_y_into_domain`,
`calculate_Rij`, `calculate_YiYj`, `Vee`, `Vtotal`, `grad_Vee`,
`grad_total`, `thermal_kick_x`, `perturb_and_solve`) and the bare-array
helper `map_into_domain`.

Machine floats are modelled as real numbers; numpy arrays of length m
are modelled as `Fin m → ℝ` (matrices as `Fin m → Fin m → ℝ`) for the
energy model and as `List ℝ` for the annealing loop and the codec.
The externally fitted interpolators (`RectBivariateSpline`,
`UnivariateSpline`) are black boxes in the source and enter the
embedding as function parameters (`V`, `dVdx`, `dVdy`, ...).
The scipy minimizer is a black box returning a record with fields
`x`, `fun`, `status`; it is a function parameter `minimize` and its
randomness-free determinism is irrelevant to the claims.
`np.random.randn` draws are supplied as an explicit stream `gx`/`gy`.
In-place numpy mutation (`yi[yi > top] = top` inside `map_into_domain`)
is modelled by an explicit post-state function for the argument array.
-/

namespace TrapAnalysis

/-! ## Coordinate codec (source lines 527-548)

`r2xy(r)` returns the numpy views `r[::2], r[1::2]`; `xy2r(x, y)`
interleaves two equal-length arrays and raises `ValueError` otherwise,
modelled by `Option`. -/

/-- Elements of a list at even indices, modelling the numpy slice `r[::2]`. -/
def evens {α : Type*} : List α → List α
  | [] => []
  | [a] => [a]
  | a :: _ :: t => a :: evens t

/-- Elements of a list at odd indices, modelling the numpy slice `r[1::2]`. -/
def odds {α : Type*} : List α → List α
  | [] => []
  | [_] => []
  | _ :: b :: t => b :: odds t

/-- Source `r2xy` (lines 527-533): split an interleaved position vector. -/
def r2xy {α : Type*} (r : List α) : List α × List α := (evens r, odds r)

/-- Interleaving of two lists, modelling `r[::2] = x; r[1::2] = y` on a
fresh array of length `2 * len x` when the lengths agree. -/
def interleave {α : Type*} : List α → List α → List α
  | a :: as, b :: bs => a :: b :: interleave as bs
  | _, _ => []

/-- Source `xy2r` (lines 535-548): interleave `x` and `y` if their lengths
agree, otherwise raise (modelled by `none`). -/
def xy2r {α : Type*} (x y : List α) : Option (List α) :=
  if x.length = y.length then some (interleave x y) else none

/-! ## Physical constants (source lines 140-141, 374-376, 493-494) -/

/-- Elementary charge constant `qe = 1.602E-19` from the source. -/
noncomputable def qe : ℝ := 1.602e-19

/-- Vacuum permittivity constant `eps0 = 8.85E-12` from the source. -/
noncomputable def eps0 : ℝ := 8.85e-12

/-- Boltzmann constant `kB = 1.38E-23` from the source. -/
noncomputable def kB : ℝ := 1.38e-23

/-! ## Position-vector slicing

A position vector of `n` charges is `r : Fin (2*n) → ℝ`; `xs r`/`ys r`
are the slices `r[::2]` and `r[1::2]`. -/

/-- Index of the x-coordinate of charge `k` in the position vector. -/
def ix {n : ℕ} (k : Fin n) : Fin (2 * n) := ⟨2 * k.val, by have := k.isLt; omega⟩

/-- Index of the y-coordinate of charge `k` in the position vector. -/
def iy {n : ℕ} (k : Fin n) : Fin (2 * n) := ⟨2 * k.val + 1, by have := k.isLt; omega⟩

/-- Slice `r[::2]` of a position vector. -/
def xs {n : ℕ} (r : Fin (2 * n) → ℝ) (k : Fin n) : ℝ := r (ix k)

/-- Slice `r[1::2]` of a position vector. -/
def ys {n : ℕ} (r : Fin (2 * n) → ℝ) (k : Fin n) : ℝ := r (iy k)

/-! ## ElectrostaticPotential: pairwise interaction (source lines 163-271)

With `Xi, Yi = np.meshgrid(xi, yi)` and `Xj, Yj = Xi.T, Yi.T`, the entry
`[a, b]` of `Xi - Xj` is `xi[b] - xi[a]` and of `Yi - Yj` is
`yi[a] - yi[b]`. -/

/-- Pairwise distance matrix entry `[a, b]`:
`Rij = sqrt((Xi - Xj)**2 + (Yi - Yj)**2)` (lines 173, 242). -/
noncomputable def Rij {n : ℕ} (x y : Fin n → ℝ) (a b : Fin n) : ℝ :=
  Real.sqrt ((x b - x a) ^ 2 + (y a - y b) ^ 2)

/-- Distance matrix after `np.fill_diagonal(Rij, eps)` (lines 174, 243). -/
noncomputable def RijEps {n : ℕ} (eps : ℝ) (x y : Fin n → ℝ) (a b : Fin n) : ℝ :=
  if a = b then eps else Rij x y a b

/-- Source `ElectrostaticPotential.Vee` (lines 163-176): the matrix
`1/2 * qe**2 / (4*pi*eps0) * 1/Rij` with `eps` on the diagonal of `Rij`. -/
noncomputable def Vee {n : ℕ} (eps : ℝ) (x y : Fin n → ℝ) (a b : Fin n) : ℝ :=
  1 / 2 * qe ^ 2 / (4 * Real.pi * eps0) * (1 / RijEps eps x y a b)

/-- Matrix after `np.fill_diagonal(M, 0)`. -/
def zeroDiag {n : ℕ} (M : Fin n → Fin n → ℝ) (a b : Fin n) : ℝ :=
  if a = b then 0 else M a b

/-- Full matrix sum `np.sum(M)`. -/
noncomputable def msum {n : ℕ} (M : Fin n → Fin n → ℝ) : ℝ :=
  ∑ a : Fin n, ∑ b : Fin n, M a b

/-- Source `Velectrostatic` (lines 152-161): `qe * np.sum(V(xi, yi))`,
where only the diagonal of the meshgrid evaluation matters, i.e. the sum
of the field at the charge positions.  The interpolated field `V` is an
external black box and enters as a function parameter. -/
noncomputable def Velectrostatic {n : ℕ} (V : ℝ → ℝ → ℝ) (x y : Fin n → ℝ) : ℝ :=
  qe * ∑ i : Fin n, V (x i) (y i)

/-- Source `ElectrostaticPotential.Vtotal` (lines 178-193) with the
diagonal placeholder `eps` of the inner `Vee` call kept as a parameter
(the source calls `Vee` with its default `eps = 1E-15`). -/
noncomputable def VtotalE {n : ℕ} (V : ℝ → ℝ → ℝ) (eps : ℝ) (r : Fin (2 * n) → ℝ) : ℝ :=
  (Velectrostatic V (xs r) (ys r) + msum (zeroDiag (Vee eps (xs r) (ys r)))) / qe

/-- Source `ElectrostaticPotential.Vtotal` (lines 178-193): slice `r`,
add `Velectrostatic` and the zero-diagonal `Vee` sum, divide by `qe`. -/
noncomputable def Vtotal {n : ℕ} (V : ℝ → ℝ → ℝ) (r : Fin (2 * n) → ℝ) : ℝ :=
  VtotalE V 1e-15 r

/-- Column sums of the zero-diagonal `gradx_matrix` of `grad_Vee`
(lines 249-250, 255): entry `[a, b]` is
`-1 * qe**2/(4*pi*eps0) * (Xi - Xj)/Rij**3`, summed along `axis=0`. -/
noncomputable def gradVeeX {n : ℕ} (eps : ℝ) (x y : Fin n → ℝ) (b : Fin n) : ℝ :=
  ∑ a : Fin n,
    zeroDiag (fun a b => -1 * qe ^ 2 / (4 * Real.pi * eps0) *
      (x b - x a) / RijEps eps x y a b ^ 3) a b

/-- Column sums of the zero-diagonal `grady_matrix` of `grad_Vee`
(lines 252-253, 256): entry `[a, b]` is
`+1 * qe**2/(4*pi*eps0) * (Yi - Yj)/Rij**3`, summed along `axis=0`. -/
noncomputable def gradVeeY {n : ℕ} (eps : ℝ) (x y : Fin n → ℝ) (b : Fin n) : ℝ :=
  ∑ a : Fin n,
    zeroDiag (fun a b => 1 * qe ^ 2 / (4 * Real.pi * eps0) *
      (y a - y b) / RijEps eps x y a b ^ 3) a b

/-- Source `ElectrostaticPotential.grad_Vee` (lines 231-258): interleaved
gradient vector of length `2*n`, `gradient[::2]` from `gradx_matrix`,
`gradient[1::2]` from `grady_matrix`. -/
noncomputable def grad_Vee {n : ℕ} (eps : ℝ) (x y : Fin n → ℝ) : Fin (2 * n) → ℝ :=
  fun j =>
    if j.val % 2 = 0 then gradVeeX eps x y ⟨j.val / 2, by have := j.isLt; omega⟩
    else gradVeeY eps x y ⟨j.val / 2, by have := j.isLt; omega⟩

/-- Source `ElectrostaticPotential.grad_total` (lines 260-271):
`gradient[::2] = dVdx(xi, yi)`, `gradient[1::2] = dVdy(xi, yi)`, plus
`grad_Vee(xi, yi) / qe`.  The interpolant partial derivatives `dVdx`,
`dVdy` are black boxes and enter as function parameters. -/
noncomputable def grad_total {n : ℕ} (dVdx dVdy : ℝ → ℝ → ℝ) (r : Fin (2 * n) → ℝ) :
    Fin (2 * n) → ℝ :=
  fun j =>
    (if j.val % 2 = 0 then
      dVdx (xs r ⟨j.val / 2, by have := j.isLt; omega⟩) (ys r ⟨j.val / 2, by have := j.isLt; omega⟩)
    else
      dVdy (xs r ⟨j.val / 2, by have := j.isLt; omega⟩) (ys r ⟨j.val / 2, by have := j.isLt; omega⟩))
    + grad_Vee 1e-15 (xs r) (ys r) j / qe

/-! ## ResonatorSolver: periodic variant (source lines 366-496) -/

/-- Real floored modulo, the meaning of numpy `%` on floats:
`a % b = a - b * floor(a / b)`. -/
noncomputable def rmod (a b : ℝ) : ℝ := a - b * ⌊a / b⌋

/-- Source `map_y_into_domain` (lines 381-384) with the default bounds
`(-box_y_length/2, box_y_length/2)`:
`ybounds[0] + (y - ybounds[0]) % (ybounds[1] - ybounds[0])`. -/
noncomputable def map_y_into_domain (L y : ℝ) : ℝ :=
  -(L / 2) + rmod (y - -(L / 2)) (L / 2 - -(L / 2))

/-- Elementwise `map_y_into_domain` on a coordinate array. -/
noncomputable def mapped {n : ℕ} (L : ℝ) (y : Fin n → ℝ) : Fin n → ℝ :=
  fun i => map_y_into_domain L (y i)

/-- The shift `Yi_shifted[Yi_shifted > 0] -= box_y_length` applied to a
single y-value (lines 392-393). -/
noncomputable def shiftY (L v : ℝ) : ℝ := if 0 < v then v - L else v

/-- The matrix `Rij_shifted` of `calculate_Rij` (line 396). -/
noncomputable def Rij_shifted {n : ℕ} (L : ℝ) (x y : Fin n → ℝ) (a b : Fin n) : ℝ :=
  Real.sqrt ((x b - x a) ^ 2 + (shiftY L (y a) - shiftY L (y b)) ^ 2)

/-- Source `ResonatorSolver.calculate_Rij` (lines 386-398):
`np.minimum(Rij_standard, Rij_shifted)`. -/
noncomputable def calculate_Rij {n : ℕ} (L : ℝ) (x y : Fin n → ℝ) (a b : Fin n) : ℝ :=
  min (Rij x y a b) (Rij_shifted L x y a b)

/-- Source `ResonatorSolver.calculate_YiYj` (lines 400-417): `Yi - Yj`
with the shifted difference copied in exactly where
`Rij_shifted < Rij_standard`. -/
noncomputable def calculate_YiYj {n : ℕ} (L : ℝ) (x y : Fin n → ℝ) (a b : Fin n) : ℝ :=
  if Rij_shifted L x y a b < Rij x y a b then shiftY L (y a) - shiftY L (y b)
  else y a - y b

/-- Periodic distance matrix after `np.fill_diagonal(Rij, eps)`
(lines 431, 461). -/
noncomputable def RijEpsRS {n : ℕ} (eps L : ℝ) (x y : Fin n → ℝ) (a b : Fin n) : ℝ :=
  if a = b then eps else calculate_Rij L x y a b

/-- Source `ResonatorSolver.Vee` (lines 428-433): maps `yi` into the
domain, builds `calculate_Rij`, puts `eps` on the diagonal, and forms
`1/2 * qe**2/(4*pi*eps0) * 1/Rij`. -/
noncomputable def VeeRS {n : ℕ} (eps L : ℝ) (x y : Fin n → ℝ) (a b : Fin n) : ℝ :=
  1 / 2 * qe ^ 2 / (4 * Real.pi * eps0) * (1 / RijEpsRS eps L x (mapped L y) a b)

/-- Source `ResonatorSolver.Vtotal` (lines 435-441) with the diagonal
placeholder of the inner `Vee` call kept as a parameter.  The univariate
interpolator `V` (a function of `x` alone) is a black-box parameter. -/
noncomputable def VtotalRSE {n : ℕ} (V : ℝ → ℝ) (eps L : ℝ) (r : Fin (2 * n) → ℝ) : ℝ :=
  (qe * ∑ i : Fin n, V (xs r i) + msum (zeroDiag (VeeRS eps L (xs r) (ys r)))) / qe

/-- Source `ResonatorSolver.Vtotal` (lines 435-441): the cost function of
the periodic variant (`Vee` called with its default `eps = 1E-15`). -/
noncomputable def VtotalRS {n : ℕ} (V : ℝ → ℝ) (L : ℝ) (r : Fin (2 * n) → ℝ) : ℝ :=
  VtotalRSE V 1e-15 L r

/-- Column sums of the zero-diagonal `gradx_matrix` of the periodic
`grad_Vee` (lines 467-468, 474). -/
noncomputable def gradVeeXRS {n : ℕ} (eps L : ℝ) (x y : Fin n → ℝ) (b : Fin n) : ℝ :=
  ∑ a : Fin n,
    zeroDiag (fun a b => -1 * qe ^ 2 / (4 * Real.pi * eps0) *
      (x b - x a) / RijEpsRS eps L x (mapped L y) a b ^ 3) a b

/-- Column sums of the zero-diagonal `grady_matrix` of the periodic
`grad_Vee` (lines 470-472, 475), using `calculate_YiYj` on the mapped
coordinates. -/
noncomputable def gradVeeYRS {n : ℕ} (eps L : ℝ) (x y : Fin n → ℝ) (b : Fin n) : ℝ :=
  ∑ a : Fin n,
    zeroDiag (fun a b => 1 * qe ^ 2 / (4 * Real.pi * eps0) *
      calculate_YiYj L x (mapped L y) a b / RijEpsRS eps L x (mapped L y) a b ^ 3) a b

/-- Source `ResonatorSolver.grad_Vee` (lines 455-477): interleaved
gradient vector of the periodic pair interaction. -/
noncomputable def grad_VeeRS {n : ℕ} (eps L : ℝ) (x y : Fin n → ℝ) : Fin (2 * n) → ℝ :=
  fun j =>
    if j.val % 2 = 0 then gradVeeXRS eps L x y ⟨j.val / 2, by have := j.isLt; omega⟩
    else gradVeeYRS eps L x y ⟨j.val / 2, by have := j.isLt; omega⟩

/-- Source `ResonatorSolver.grad_total` (lines 479-490):
`gradient[::2] = dVdx(xi, yi)` (the spline derivative `dV`, a function of
`x` alone), `gradient[1::2] = dVdy(xi, yi)` which is identically zero,
plus `grad_Vee(xi, yi) / qe`. -/
noncomputable def grad_totalRS {n : ℕ} (dV : ℝ → ℝ) (L : ℝ) (r : Fin (2 * n) → ℝ) :
    Fin (2 * n) → ℝ :=
  fun j =>
    (if j.val % 2 = 0 then dV (xs r ⟨j.val / 2, by have := j.isLt; omega⟩) else 0)
    + grad_VeeRS 1e-15 L (xs r) (ys r) j / qe

/-! ## Annealing refiner (source lines 492-521) -/

/-- Minimizer result record: scipy's `OptimizeResult` restricted to the
fields the source reads (`x`, `fun`, `status`; status `0` means
converged). -/
structure MinResult where
  x : List ℝ
  fval : ℝ
  status : ℤ

/-- Source `thermal_kick_x` (lines 492-496):
`sqrt(2 * kB * T / abs(qe * ddVdx(x, y)))` elementwise. -/
noncomputable def thermal_kick_x (ddVdx : ℝ → ℝ → ℝ) (T : ℝ) (x y : List ℝ) : List ℝ :=
  List.zipWith (fun a b => Real.sqrt (2 * kB * T / |qe * ddVdx a b|)) x y

/-- Parameters of one `perturb_and_solve` call: the solver's spline
second derivative `ddVdx` (black box), the temperature `T`, the
`np.random.randn` streams `gx`/`gy` (trial number, electron index), the
external minimizer `minimize` (modelling
`scipy.optimize.minimize(cost_function, ., method='CG', **kwargs)`, a
black box), and the starting solution `solution_data_reference`. -/
structure PASParams where
  ddVdx : ℝ → ℝ → ℝ
  T : ℝ
  gx : ℕ → ℕ → ℝ
  gy : ℕ → ℕ → ℝ
  minimize : List ℝ → MinResult
  start : MinResult

/-- The `np.random.randn(len)` draw of trial `n` as a list. -/
def randList (g : ℕ → ℕ → ℝ) (n len : ℕ) : List ℝ := (List.range len).map (g n)

/-- The perturbed position passed to the minimizer in trial `n` when the
perturbation is applied to `base` (source lines 504-507):
`xi, yi = r2xy(base)`;
`xi' = xi + thermal_kick_x(xi, yi, T) * randn(len(xi))`;
`yi' = yi + thermal_kick_x(xi, yi, T) * randn(len(yi))`;
`xy2r(xi', yi')` (the lengths agree, so `xy2r` succeeds and equals
`interleave`). -/
noncomputable def trialStart (p : PASParams) (n : ℕ) (base : List ℝ) : List ℝ :=
  interleave
    (List.zipWith (· + ·) (evens base)
      (List.zipWith (· * ·) (thermal_kick_x p.ddVdx p.T (evens base) (odds base))
        (randList p.gx n (evens base).length)))
    (List.zipWith (· + ·) (odds base)
      (List.zipWith (· * ·) (thermal_kick_x p.ddVdx p.T (evens base) (odds base))
        (randList p.gy n (odds base).length)))

open Classical in
/-- The state of `perturb_and_solve` after `n` trials (source lines
498-521): the retained `best_result` and the list of positions handed to
the minimizer so far.  Exactly as in the source, the perturbation base of
every trial is `electron_initial_positions = solution_data_reference['x']`
(bound once, before the loop); `best_result` is replaced only in the
branch `res['status'] == 0 and res['fun'] < best_result['fun']`. -/
noncomputable def pasRun (p : PASParams) : ℕ → MinResult × List (List ℝ)
  | 0 => (p.start, [])
  | n + 1 =>
    let prev := pasRun p n
    let pos := trialStart p n p.start.x
    let res := p.minimize pos
    (if res.status = 0 ∧ res.fval < prev.1.fval then res else prev.1, prev.2 ++ [pos])

/-- Source `ResonatorSolver.perturb_and_solve` (lines 498-521): run
`N_perturbations` trials and return the retained best result. -/
noncomputable def perturb_and_solve (p : PASParams) (N : ℕ) : MinResult :=
  (pasRun p N).1

/-! ## Bare-array helper `map_into_domain` (source lines 550-570)

Modelled over `ℚ` (exact float-free arithmetic keeps every statement
decidable).  `xi` is rebound to a fresh array inside the function; `yi`
is clipped in place by `yi[yi > top] = top; yi[yi < bottom] = bottom`,
mutating the caller's array.  The post-state of the argument arrays is
modelled explicitly. -/

/-- Rational floored modulo, the meaning of numpy `%`:
`a % b = a - b * floor(a / b)`. -/
def rmodQ (a b : ℚ) : ℚ := a - b * ⌊a / b⌋

/-- Post-state of the caller's `xi` array after `map_into_domain`: the
source only rebinds the local name `xi`, so the argument is unchanged. -/
def map_into_domain_xi_after (xi : List ℚ) : List ℚ := xi

/-- Post-state of the caller's `yi` array after `map_into_domain`: the
source executes `yi[yi > top_boundary] = top_boundary` and then
`yi[yi < bottom_boundary] = bottom_boundary` in place. -/
def map_into_domain_yi_after (yi : List ℚ) (ybounds : ℚ × ℚ) : List ℚ :=
  (yi.map fun v => if ybounds.2 < v then ybounds.2 else v).map
    fun v => if v < ybounds.1 then ybounds.1 else v

/-- Source `map_into_domain` (lines 550-570): returns
`np.abs(L - (xi - right) % (2*L)) + left` and the (clipped, in-place
mutated) `yi` array. -/
def map_into_domain (xi yi : List ℚ) (xbounds ybounds : ℚ × ℚ) : List ℚ × List ℚ :=
  (xi.map fun v =>
      |xbounds.2 - xbounds.1 - rmodQ (v - xbounds.2) (2 * (xbounds.2 - xbounds.1))| + xbounds.1,
    map_into_domain_yi_after yi ybounds)

/-! ## Concrete instances used in counterexamples and witnesses -/

/-- The identically zero external field (bivariate). -/
noncomputable def Vzero2 : ℝ → ℝ → ℝ := fun _ _ => 0

/-- The identically zero external field (univariate). -/
noncomputable def Vzero1 : ℝ → ℝ := fun _ => 0

/-- Two charges at `(0, -1/2)` and `(0, 1/2)`: a configuration whose
periodic y-separation is exactly half the domain length `L = 2`. -/
noncomputable def rTie : Fin (2 * 2) → ℝ :=
  fun j => if j.val = 1 then -(1 / 2) else if j.val = 3 then 1 / 2 else 0

/-- Two charges at `(0, 0)` and `(1, 0)`. -/
noncomputable def rUnit : Fin (2 * 2) → ℝ := fun j => if j.val = 2 then 1 else 0

/-- Two charges at `(0, 0)` and `(1e-6, 0)` (meters), the scenario of the
spec. -/
noncomputable def rMicron : Fin (2 * 2) → ℝ := fun j => if j.val = 2 then 1e-6 else 0

/-- Concrete annealing parameters: temperature zero (so every trial
perturbs by nothing), a minimizer that always returns the converged
result `x = [1, 1], fun = -1`, and the converged start
`x = [0, 0], fun = 5`. -/
noncomputable def pEx : PASParams where
  ddVdx := fun _ _ => 1
  T := 0
  gx := fun _ _ => 0
  gy := fun _ _ => 0
  minimize := fun _ => ⟨[1, 1], -1, 0⟩
  start := ⟨[0, 0], 5, 0⟩

/-! # Theorems -/

/-! ## Codec lemmas -/

/-- Two-step structural induction for lists. -/
theorem list_pair_induction {α : Type*} {motive : List α → Prop} (h0 : motive [])
    (h1 : ∀ a, motive [a]) (h2 : ∀ a b t, motive t → motive (a :: b :: t)) :
    ∀ l, motive l
  | [] => h0
  | [a] => h1 a
  | a :: b :: t => h2 a b t (list_pair_induction h0 h1 h2 t)

theorem evens_interleave {α : Type*} :
    ∀ (x y : List α), x.length = y.length → evens (interleave x y) = x := by
  intro x
  induction x with
  | nil => intro y _; cases y <;> rfl
  | cons a as ih =>
    intro y h
    cases y with
    | nil => simp at h
    | cons b bs =>
      show a :: evens (interleave as bs) = a :: as
      rw [ih bs (by simpa using h)]

theorem odds_interleave {α : Type*} :
    ∀ (x y : List α), x.length = y.length → odds (interleave x y) = y := by
  intro x
  induction x with
  | nil =>
    intro y h
    cases y with
    | nil => rfl
    | cons b bs => simp at h
  | cons a as ih =>
    intro y h
    cases y with
    | nil => simp at h
    | cons b bs =>
      show b :: odds (interleave as bs) = b :: bs
      rw [ih bs (by simpa using h)]

theorem interleave_evens_odds {α : Type*} :
    ∀ (l : List α), Even l.length → interleave (evens l) (odds l) = l := by
  refine list_pair_induction (fun _ => rfl) (fun a h => ?_) (fun a b t ih h => ?_)
  · simp at h
  · show a :: b :: interleave (evens t) (odds t) = a :: b :: t
    rw [ih ?_]
    · simp only [List.length_cons] at h
      rcases h with ⟨m, hm⟩
      exact ⟨m - 1, by omega⟩

theorem interleave_length {α : Type*} :
    ∀ (x y : List α), x.length = y.length → (interleave x y).length = 2 * x.length := by
  intro x
  induction x with
  | nil => intro y _; cases y <;> simp [interleave]
  | cons a as ih =>
    intro y h
    cases y with
    | nil => simp at h
    | cons b bs =>
      show (a :: b :: interleave as bs).length = 2 * (a :: as).length
      simp only [List.length_cons, ih bs (by simpa using h)]
      ring

theorem evens_length_eq_odds_length {α : Type*} :
    ∀ (l : List α), Even l.length → (evens l).length = (odds l).length := by
  refine list_pair_induction (fun _ => rfl) (fun a h => ?_) (fun a b t ih h => ?_)
  · simp at h
  · show (a :: evens t).length = (b :: odds t).length
    simp only [List.length_cons] at h ⊢
    rw [ih ?_]
    rcases h with ⟨m, hm⟩
    exact ⟨m - 1, by omega⟩

theorem interleave_get? {α : Type*} :
    ∀ (x y : List α), x.length = y.length → ∀ k,
      (interleave x y).get? (2 * k) = x.get? k ∧
      (interleave x y).get? (2 * k + 1) = y.get? k := by
  intro x
  induction x with
  | nil =>
    intro y h k
    cases y with
    | nil => simp [interleave]
    | cons b bs => simp at h
  | cons a as ih =>
    intro y h k
    cases y with
    | nil => simp at h
    | cons b bs =>
      have hi : interleave (a :: as) (b :: bs) = a :: b :: interleave as bs := rfl
      cases k with
      | zero => simp [hi]
      | succ m =>
        have h2 : 2 * (m + 1) = 2 * m + 1 + 1 := by ring
        rw [hi, h2]
        simpa using ih bs (by simpa using h) m

theorem evens_get? {α : Type*} :
    ∀ (l : List α) (k : ℕ), (evens l).get? k = l.get? (2 * k) := by
  refine list_pair_induction (fun k => by simp [evens]) (fun a k => ?_) (fun a b t ih k => ?_)
  · cases k with
    | zero => rfl
    | succ m =>
      have : 2 * (m + 1) = m + m + 2 := by ring
      simp [evens, this]
  · cases k with
    | zero => rfl
    | succ m =>
      have h2 : 2 * (m + 1) = 2 * m + 1 + 1 := by ring
      show (a :: evens t).get? (m + 1) = (a :: b :: t).get? (2 * (m + 1))
      rw [h2]
      simpa using ih m

theorem odds_get? {α : Type*} :
    ∀ (l : List α) (k : ℕ), (odds l).get? k = l.get? (2 * k + 1) := by
  refine list_pair_induction (fun k => by simp [odds]) (fun a k => by simp [odds])
    (fun a b t ih k => ?_)
  · cases k with
    | zero => rfl
    | succ m =>
      have h2 : 2 * (m + 1) + 1 = 2 * m + 1 + 1 + 1 := by ring
      show (b :: odds t).get? (m + 1) = (a :: b :: t).get? (2 * (m + 1) + 1)
      rw [h2]
      simpa using ih m

/-- C6: for equal-length coordinate sequences, `xy2r` succeeds and
`r2xy` inverts it; for an even-length position vector, `xy2r` applied to
the slices `r2xy r` returns the vector; under both maps the `k`-th
charge's coordinates are `(x[k], y[k])`. -/
theorem C6_codec_roundtrip {α : Type*} :
    (∀ x y : List α, x.length = y.length →
      xy2r x y = some (interleave x y) ∧
      r2xy (interleave x y) = (x, y) ∧
      ∀ k, (interleave x y).get? (2 * k) = x.get? k ∧
        (interleave x y).get? (2 * k + 1) = y.get? k) ∧
    (∀ r : List α, Even r.length →
      xy2r (r2xy r).1 (r2xy r).2 = some r ∧
      ∀ k, (r2xy r).1.get? k = r.get? (2 * k) ∧ (r2xy r).2.get? k = r.get? (2 * k + 1)) := by
  constructor
  · intro x y h
    refine ⟨by simp [xy2r, h], ?_, interleave_get? x y h⟩
    simp [r2xy, evens_interleave x y h, odds_interleave x y h]
  · intro r hr
    refine ⟨?_, fun k => ⟨evens_get? r k, odds_get? r k⟩⟩
    simp only [r2xy, xy2r, evens_length_eq_odds_length r hr, if_true, reduceIte]
    rw [interleave_evens_odds r hr]

/-- C6 witness: the round-trips at concrete lists. -/
theorem C6_codec_roundtrip_witness :
    (xy2r [1, 2] [3, 4] = some (interleave [1, 2] [3, 4]) ∧
      r2xy (interleave [1, 2] [3, 4]) = ([1, 2], [3, 4])) ∧
    xy2r (r2xy [5, 6, 7, 8]).1 (r2xy [5, 6, 7, 8]).2 = some [5, 6, 7, (8 : ℕ)] :=
  ⟨⟨((C6_codec_roundtrip.1 [1, 2] [3, 4]) rfl).1,
    ((C6_codec_roundtrip.1 [1, 2] [3, 4]) rfl).2.1⟩,
    ((C6_codec_roundtrip.2 [5, 6, 7, 8]) (by decide)).1⟩

/-- C7: `xy2r` fails (returns `none`, modelling the raised error) exactly
when the lengths differ; on failure no result is produced at all, and on
equal lengths it succeeds with a vector of length `2 * len x`. -/
theorem C7_xy2r_shape {α : Type*} :
    ∀ x y : List α,
      (xy2r x y = none ↔ x.length ≠ y.length) ∧
      (∀ r, xy2r x y = some r → r.length = 2 * x.length) ∧
      (x.length = y.length → ∃ r, xy2r x y = some r) := by
  intro x y
  by_cases h : x.length = y.length
  · refine ⟨by simp [xy2r, h], fun r hr => ?_, fun _ => ⟨interleave x y, by simp [xy2r, h]⟩⟩
    simp only [xy2r, h, if_true, reduceIte, Option.some.injEq] at hr
    rw [← hr]
    exact interleave_length x y h
  · refine ⟨by simp [xy2r, h], fun r hr => ?_, fun hc => absurd hc h⟩
    simp [xy2r, h] at hr

/-- C7 witness: the shape contract at concrete lists. -/
theorem C7_xy2r_shape_witness :
    xy2r [1] ([] : List ℕ) = none ∧
    (∀ r, xy2r [1] [(2 : ℕ)] = some r → r.length = 2 * [1].length) ∧
    (∃ r, xy2r [1] [(2 : ℕ)] = some r) :=
  ⟨(C7_xy2r_shape [1] ([] : List ℕ)).1.mpr (by decide),
    (C7_xy2r_shape [1] [(2 : ℕ)]).2.1,
    (C7_xy2r_shape [1] [(2 : ℕ)]).2.2 rfl⟩

/-! ## Bare-array helper purity (C10) -/

theorem map_eq_self_of_mem {α : Type*} :
    ∀ (l : List α) (f : α → α), (∀ v ∈ l, f v = v) → l.map f = l := by
  intro l f h
  induction l with
  | nil => rfl
  | cons a t ih =>
    simp only [List.map_cons, List.cons.injEq]
    exact ⟨h a (by simp), ih fun v hv => h v (by simp [hv])⟩

theorem mem_of_map_eq_self {α : Type*} :
    ∀ (l : List α) (f : α → α), l.map f = l → ∀ v ∈ l, f v = v := by
  intro l f h
  induction l with
  | nil => intro v hv; simp at hv
  | cons a t ih =>
    simp only [List.map_cons, List.cons.injEq] at h
    intro v hv
    rcases List.mem_cons.mp hv with hva | hvt
    · rw [hva, h.1]
    · exact ih h.2 v hvt

/-- C10 counterexample: `map_into_domain` mutates its `yi` argument in
place.  With `yi = [2]` and `ybounds = (-1, 1)` the caller's array is
`[1]` after the call, not `[2]`. -/
theorem C10_map_into_domain_counterexample :
    (map_into_domain [0] [2] ((-1 : ℚ), 1) ((-1 : ℚ), 1)).2 = [1] ∧
    map_into_domain_yi_after [2] ((-1 : ℚ), 1) = [1] ∧
    map_into_domain_yi_after [2] ((-1 : ℚ), 1) ≠ [2] := by
  refine ⟨?_, ?_, ?_⟩ <;> decide

/-- C10 amended: `r2xy` and `xy2r` are pure, and `map_into_domain` does
not mutate `xi`; but it does mutate `yi` in place, clipping every element
into `ybounds` (the returned second component aliases the mutated
argument), and for sane bounds the argument is left unchanged exactly
when every element already lies within the bounds. -/
theorem C10_map_into_domain_amended :
    ∀ (xi yi : List ℚ) (xb yb : ℚ × ℚ),
      map_into_domain_xi_after xi = xi ∧
      (map_into_domain xi yi xb yb).2 = map_into_domain_yi_after yi yb ∧
      (yb.1 ≤ yb.2 →
        (map_into_domain_yi_after yi yb = yi ↔ ∀ v ∈ yi, yb.1 ≤ v ∧ v ≤ yb.2)) := by
  intro xi yi xb yb
  refine ⟨rfl, rfl, fun hb => ⟨fun h v hv => ?_, fun h => ?_⟩⟩
  · have hfix := mem_of_map_eq_self yi _
      (by simpa only [map_into_domain_yi_after, List.map_map] using h) v hv
    simp only [Function.comp] at hfix
    by_cases h2 : yb.2 < v
    · rw [if_pos h2, if_neg (not_lt.mpr hb)] at hfix
      exact absurd (hfix ▸ h2) (lt_irrefl _)
    · rw [if_neg h2] at hfix
      by_cases h1 : v < yb.1
      · rw [if_pos h1] at hfix
        exact absurd (hfix ▸ h1) (lt_irrefl _)
      · exact ⟨not_lt.mp h1, not_lt.mp h2⟩
  · simp only [map_into_domain_yi_after, List.map_map]
    refine map_eq_self_of_mem yi _ fun v hv => ?_
    have := h v hv
    simp only [Function.comp]
    rw [if_neg (not_lt.mpr this.2), if_neg (not_lt.mpr this.1)]

/-- C10 amended witness: the purity facts at concrete arrays. -/
theorem C10_map_into_domain_amended_witness :
    map_into_domain_xi_after [(5 : ℚ)] = [5] ∧
    (map_into_domain [5] [2] ((-1 : ℚ), 1) ((-1 : ℚ), 1)).2 =
      map_into_domain_yi_after [2] ((-1 : ℚ), 1) ∧
    (map_into_domain_yi_after [2] ((-1 : ℚ), 1) = [2] ↔
      ∀ v ∈ [(2 : ℚ)], (-1 : ℚ) ≤ v ∧ v ≤ 1) :=
  ⟨(C10_map_into_domain_amended [5] [2] (-1, 1) (-1, 1)).1,
    (C10_map_into_domain_amended [5] [2] (-1, 1) (-1, 1)).2.1,
    (C10_map_into_domain_amended [5] [2] (-1, 1) (-1, 1)).2.2 (by norm_num)⟩

/-! ## Annealing refiner (C2, C3) -/

open Classical in
theorem pasRun_succ (p : PASParams) (n : ℕ) :
    pasRun p (n + 1) =
      (if (p.minimize (trialStart p n p.start.x)).status = 0 ∧
          (p.minimize (trialStart p n p.start.x)).fval < (pasRun p n).1.fval
        then p.minimize (trialStart p n p.start.x) else (pasRun p n).1,
        (pasRun p n).2 ++ [trialStart p n p.start.x]) := rfl

theorem pasRun_trace_length (p : PASParams) : ∀ n, (pasRun p n).2.length = n := by
  intro n
  induction n with
  | zero => rfl
  | succ m ih => rw [pasRun_succ]; simp [ih]

theorem pasRun_fval_mono (p : PASParams) (n : ℕ) :
    (pasRun p (n + 1)).1.fval ≤ (pasRun p n).1.fval := by
  rw [pasRun_succ]
  split
  · next h => exact le_of_lt h.2
  · exact le_refl _

theorem pasRun_fval_le_start (p : PASParams) : ∀ n, (pasRun p n).1.fval ≤ p.start.fval := by
  intro n
  induction n with
  | zero => exact le_refl _
  | succ m ih => exact le_trans (pasRun_fval_mono p m) ih

/-- C2 counterexample: with the concrete parameters `pEx` the first trial
improves the best result to `x = [1, 1]`, yet trial `1` still perturbs
(and hands the minimizer) the original start position `[0, 0]`, not the
perturbation `[1, 1]` of the current best position.  (At `T = 0` the
thermal kick is zero, so the perturbed point equals the base point.) -/
theorem C2_perturb_base_counterexample :
    (pasRun pEx 2).2.get? 1 = some [0, 0] ∧
    (pasRun pEx 1).1.x = [1, 1] ∧
    trialStart pEx 1 ((pasRun pEx 1).1.x) = [1, 1] ∧
    ([0, 0] : List ℝ) ≠ [1, 1] := by
  have hkick : ∀ (u : ℝ) (m : ℕ), trialStart pEx m [u, u] = [u, u] := by
    intro u m
    show interleave _ _ = _
    have he : evens [u, u] = [u] := rfl
    have ho : odds [u, u] = [u] := rfl
    rw [he, ho]
    have hk : thermal_kick_x pEx.ddVdx pEx.T [u] [u] = [0] := by
      show [Real.sqrt (2 * kB * 0 / |qe * 1|)] = [0]
      norm_num
    rw [hk]
    have hr : ∀ g : ℕ → ℕ → ℝ, randList g m 1 = [g m 0] := fun g => rfl
    show interleave (List.zipWith _ [u] (List.zipWith _ [0] (randList pEx.gx m 1)))
      (List.zipWith _ [u] (List.zipWith _ [0] (randList pEx.gy m 1))) = [u, u]
    rw [hr, hr]
    show [u + 0 * pEx.gx m 0, u + 0 * pEx.gy m 0] = [u, u]
    norm_num
  have h0 : pEx.start.x = [0, 0] := rfl
  have ht0 : trialStart pEx 0 pEx.start.x = [0, 0] := by rw [h0]; exact hkick 0 0
  have ht1 : trialStart pEx 1 pEx.start.x = [0, 0] := by rw [h0]; exact hkick 0 1
  have hres : ∀ l : List ℝ, pEx.minimize l = ⟨[1, 1], -1, 0⟩ := fun l => rfl
  have h1 : pasRun pEx 1 = (⟨[1, 1], -1, 0⟩, [[0, 0]]) := by
    rw [show (1 : ℕ) = 0 + 1 from rfl, pasRun_succ]
    rw [ht0, hres]
    rw [if_pos ⟨rfl, by show (-1 : ℝ) < pEx.start.fval; norm_num [pEx]⟩]
    rfl
  refine ⟨?_, by rw [h1], by rw [h1]; exact hkick 1 1, by simp⟩
  rw [show (2 : ℕ) = 1 + 1 from rfl, pasRun_succ, h1, ht1]
  rfl

/-- C2 amended: in every trial (including all trials after the first),
the position that is perturbed is the fixed original starting position
`solution_data_reference['x']`, bound once before the loop; consequently
the sequence of positions handed to the minimizer is entirely independent
of the minimizer's results, and the retained best result never feeds back
into the perturbation. -/
theorem C2_perturb_base_amended (p : PASParams) :
    (∀ N n, n < N → (pasRun p N).2.get? n = some (trialStart p n p.start.x)) ∧
    (∀ (m : List ℝ → MinResult) (N : ℕ),
      (pasRun { p with minimize := m } N).2 = (pasRun p N).2) := by
  constructor
  · intro N
    induction N with
    | zero => intro n hn; omega
    | succ M ih =>
      intro n hn
      rw [pasRun_succ]
      rcases Nat.lt_or_ge n M with h | h
      · simp only []
        rw [List.get?_append (by rw [pasRun_trace_length]; exact h)]
        exact ih n h
      · have hnM : n = M := by omega
        subst hnM
        simp only []
        rw [List.get?_append_right (by rw [pasRun_trace_length]), pasRun_trace_length]
        simp
  · intro m N
    induction N with
    | zero => rfl
    | succ M ih =>
      rw [pasRun_succ, pasRun_succ]
      simp only [ih]
      rfl

/-- C2 amended witness: at the concrete parameters, trial `1` of a
two-trial run hands the minimizer the perturbation of the original start
position. -/
theorem C2_perturb_base_amended_witness :
    (pasRun pEx 2).2.get? 1 = some (trialStart pEx 1 pEx.start.x) :=
  (C2_perturb_base_amended pEx).1 2 1 (by norm_num)

/-- C3: the result of `perturb_and_solve` never has higher energy than
the starting solution; the retained best result changes only when a trial
both converged (status 0) and strictly lowered the energy (so a
non-converged trial never becomes the best result, even if its energy is
lower); and when the starting solution is converged the retained best
result is converged after every trial. -/
theorem C3_best_result_invariants (p : PASParams) (N : ℕ) (hc : p.start.status = 0) :
    (perturb_and_solve p N).fval ≤ p.start.fval ∧
    (∀ n, (pasRun p (n + 1)).1 = (pasRun p n).1 ∨
      ((pasRun p (n + 1)).1 = p.minimize (trialStart p n p.start.x) ∧
        (p.minimize (trialStart p n p.start.x)).status = 0 ∧
        (p.minimize (trialStart p n p.start.x)).fval < (pasRun p n).1.fval)) ∧
    (∀ n, (pasRun p n).1.status = 0) := by
  refine ⟨pasRun_fval_le_start p N, fun n => ?_, fun n => ?_⟩
  · rw [pasRun_succ]
    by_cases h : (p.minimize (trialStart p n p.start.x)).status = 0 ∧
        (p.minimize (trialStart p n p.start.x)).fval < (pasRun p n).1.fval
    · exact Or.inr ⟨by rw [if_pos h], h.1, h.2⟩
    · exact Or.inl (by rw [if_neg h])
  · induction n with
    | zero => exact hc
    | succ m ih =>
      rw [pasRun_succ]
      by_cases h : (p.minimize (trialStart p m p.start.x)).status = 0 ∧
          (p.minimize (trialStart p m p.start.x)).fval < (pasRun p m).1.fval
      · rw [if_pos h]; exact h.1
      · rw [if_neg h]; exact ih

/-- C3 witness: the invariants at the concrete parameters `pEx` with two
trials. -/
theorem C3_best_result_invariants_witness :
    (perturb_and_solve pEx 2).fval ≤ pEx.start.fval ∧
    (∀ n, (pasRun pEx (n + 1)).1 = (pasRun pEx n).1 ∨
      ((pasRun pEx (n + 1)).1 = pEx.minimize (trialStart pEx n pEx.start.x) ∧
        (pEx.minimize (trialStart pEx n pEx.start.x)).status = 0 ∧
        (pEx.minimize (trialStart pEx n pEx.start.x)).fval < (pasRun pEx n).1.fval)) ∧
    (∀ n, (pasRun pEx n).1.status = 0) :=
  C3_best_result_invariants pEx 2 rfl

/-! ## Basic facts about the constants and distance matrices -/

theorem qe_pos : 0 < qe := by norm_num [qe]

theorem eps0_pos : 0 < eps0 := by norm_num [eps0]

theorem coulomb_pos : 0 < qe ^ 2 / (4 * Real.pi * eps0) :=
  div_pos (pow_pos qe_pos 2) (mul_pos (mul_pos (by norm_num) Real.pi_pos) eps0_pos)

theorem Rij_symm {n : ℕ} (x y : Fin n → ℝ) (a b : Fin n) : Rij x y a b = Rij x y b a := by
  unfold Rij
  congr 1
  ring

theorem Rij_nonneg {n : ℕ} (x y : Fin n → ℝ) (a b : Fin n) : 0 ≤ Rij x y a b :=
  Real.sqrt_nonneg _

theorem Rij_arg_pos {n : ℕ} {x y : Fin n → ℝ} {a b : Fin n} (h : Rij x y a b ≠ 0) :
    0 < (x b - x a) ^ 2 + (y a - y b) ^ 2 := by
  rcases lt_or_le 0 ((x b - x a) ^ 2 + (y a - y b) ^ 2) with hp | hp
  · exact hp
  · exact absurd (Real.sqrt_eq_zero_of_nonpos hp) h

theorem Rij_shifted_symm {n : ℕ} (L : ℝ) (x y : Fin n → ℝ) (a b : Fin n) :
    Rij_shifted L x y a b = Rij_shifted L x y b a := by
  unfold Rij_shifted
  congr 1
  ring

theorem calculate_Rij_symm {n : ℕ} (L : ℝ) (x y : Fin n → ℝ) (a b : Fin n) :
    calculate_Rij L x y a b = calculate_Rij L x y b a := by
  unfold calculate_Rij
  rw [Rij_symm, Rij_shifted_symm]

theorem calculate_Rij_nonneg {n : ℕ} (L : ℝ) (x y : Fin n → ℝ) (a b : Fin n) :
    0 ≤ calculate_Rij L x y a b :=
  le_min (Real.sqrt_nonneg _) (Real.sqrt_nonneg _)

theorem calculate_YiYj_antisymm {n : ℕ} (L : ℝ) (x y : Fin n → ℝ) (a b : Fin n) :
    calculate_YiYj L x y a b = -calculate_YiYj L x y b a := by
  unfold calculate_YiYj
  rw [Rij_shifted_symm, Rij_symm]
  split <;> ring

/-- Pointwise form of `np.minimum` of two distance matrices sharing the
x-part: the minimum of the square roots is the square root at the smaller
y-part. -/
theorem min_sqrt_add (X p q : ℝ) :
    min (Real.sqrt (X + p)) (Real.sqrt (X + q)) = Real.sqrt (X + min p q) := by
  rcases le_total p q with h | h
  · rw [min_eq_left (Real.sqrt_le_sqrt (by linarith)), min_eq_left h]
  · rw [min_eq_right (Real.sqrt_le_sqrt (by linarith)), min_eq_right h]

theorem calculate_Rij_eq_sqrt_min {n : ℕ} (L : ℝ) (x y : Fin n → ℝ) (a b : Fin n) :
    calculate_Rij L x y a b =
      Real.sqrt ((x b - x a) ^ 2 +
        min ((y a - y b) ^ 2) ((shiftY L (y a) - shiftY L (y b)) ^ 2)) := by
  rw [calculate_Rij, Rij, Rij_shifted, min_sqrt_add]

theorem calculate_Rij_arg_pos {n : ℕ} {L : ℝ} {x y : Fin n → ℝ} {a b : Fin n}
    (h : calculate_Rij L x y a b ≠ 0) :
    0 < (x b - x a) ^ 2 + min ((y a - y b) ^ 2) ((shiftY L (y a) - shiftY L (y b)) ^ 2) := by
  rw [calculate_Rij_eq_sqrt_min] at h
  rcases lt_or_le 0 ((x b - x a) ^ 2 +
      min ((y a - y b) ^ 2) ((shiftY L (y a) - shiftY L (y b)) ^ 2)) with hp | hp
  · exact hp
  · exact absurd (Real.sqrt_eq_zero_of_nonpos hp) h

/-- The branch test of `calculate_YiYj` expressed on the squared y-parts. -/
theorem shifted_lt_standard_iff {n : ℕ} (L : ℝ) (x y : Fin n → ℝ) (a b : Fin n) :
    Rij_shifted L x y a b < Rij x y a b ↔
      (shiftY L (y a) - shiftY L (y b)) ^ 2 < (y a - y b) ^ 2 := by
  unfold Rij_shifted Rij
  rw [Real.sqrt_lt_sqrt_iff (by positivity)]
  constructor <;> intro h <;> nlinarith [sq_nonneg (x b - x a)]

/-- Derivative of a Coulomb-type term `C * (1 / sqrt (A + (t - K)^2))`. -/
theorem hasDerivAt_inv_sqrt (Cst A K t0 : ℝ) (hq : 0 < A + (t0 - K) ^ 2) :
    HasDerivAt (fun t => Cst * (1 / Real.sqrt (A + (t - K) ^ 2)))
      (-(Cst * (t0 - K)) / Real.sqrt (A + (t0 - K) ^ 2) ^ 3) t0 := by
  have hqne : A + (t0 - K) ^ 2 ≠ 0 := ne_of_gt hq
  have hs : 0 < Real.sqrt (A + (t0 - K) ^ 2) := Real.sqrt_pos.mpr hq
  have h1 : HasDerivAt (fun t => A + (t - K) ^ 2) (2 * (t0 - K)) t0 := by
    have h := (((hasDerivAt_id t0).sub_const K).pow 2).const_add A
    simp only [id_eq] at h
    convert h using 1
    ring
  have h2 : HasDerivAt (fun t => Real.sqrt (A + (t - K) ^ 2))
      (1 / (2 * Real.sqrt (A + (t0 - K) ^ 2)) * (2 * (t0 - K))) t0 :=
    (Real.hasDerivAt_sqrt hqne).comp t0 h1
  have h3 := (h2.inv hs.ne').const_mul Cst
  have hfun : (fun t => Cst * (Real.sqrt (A + (t - K) ^ 2))⁻¹) =
      fun t => Cst * (1 / Real.sqrt (A + (t - K) ^ 2)) := by
    funext t
    rw [one_div]
  rw [hfun] at h3
  have hne := hs.ne'
  set S := Real.sqrt (A + (t0 - K) ^ 2) with hSdef
  convert h3 using 1
  field_simp [hne]
  ring

/-- Summation identity for the pairwise gradient: the double sum over the
per-entry derivatives (supported on row `k` and column `k`, diagonal
zero) collapses, for a symmetric denominator matrix, to twice the column
`k` sums. -/
theorem double_sum_offdiag {n : ℕ} (k : Fin n) (g : Fin n → ℝ) (D : Fin n → Fin n → ℝ)
    (hD : ∀ a b, D a b = D b a) :
    (∑ a : Fin n, ∑ b : Fin n,
      (if a = b then 0 else if b = k then g a / D a b else if a = k then g b / D a b else 0)) =
    ∑ a : Fin n, (if a = k then 0 else 2 * (g a / D a k)) := by
  have hsplit : ∀ f : Fin n → ℝ, (∑ a : Fin n, f a) = f k + ∑ a ∈ Finset.univ.erase k, f a :=
    fun f => (Finset.add_sum_erase _ f (Finset.mem_univ k)).symm
  rw [hsplit (fun a => ∑ b : Fin n,
    (if a = b then 0 else if b = k then g a / D a b else if a = k then g b / D a b else 0))]
  rw [hsplit (fun a => if a = k then 0 else 2 * (g a / D a k))]
  have hrow : (∑ b : Fin n,
      (if k = b then 0 else if b = k then g k / D k b else if k = k then g b / D k b else 0)) =
      ∑ b ∈ Finset.univ.erase k, g b / D k b := by
    rw [hsplit (fun b =>
      (if k = b then 0 else if b = k then g k / D k b else if k = k then g b / D k b else 0))]
    rw [if_pos rfl, zero_add]
    refine Finset.sum_congr rfl fun b hb => ?_
    have hbk : b ≠ k := Finset.ne_of_mem_erase hb
    rw [if_neg (fun h => hbk h.symm), if_neg hbk, if_pos rfl]
  have hcol : ∀ a, a ≠ k → (∑ b : Fin n,
      (if a = b then 0 else if b = k then g a / D a b else if a = k then g b / D a b else 0)) =
      g a / D a k := by
    intro a ha
    rw [Finset.sum_eq_single k]
    · rw [if_neg (fun h => ha h), if_pos rfl]
    · intro b _ hbk
      by_cases hab : a = b
      · rw [if_pos hab]
      · rw [if_neg hab, if_neg hbk, if_neg ha]
    · intro h
      exact absurd (Finset.mem_univ k) h
  rw [hrow, if_pos rfl, zero_add]
  rw [Finset.sum_congr rfl fun a ha => hcol a (Finset.ne_of_mem_erase ha)]
  rw [← Finset.sum_add_distrib]
  refine Finset.sum_congr rfl fun a ha => ?_
  rw [if_neg (Finset.ne_of_mem_erase ha), hD k a]
  ring

/-! ## C8: the diagonal placeholder is inert (zero self-energy) -/

theorem gradVeeX_eps_indep {n : ℕ} (e₁ e₂ : ℝ) (x y : Fin n → ℝ) (b : Fin n) :
    gradVeeX e₁ x y b = gradVeeX e₂ x y b := by
  unfold gradVeeX
  refine Finset.sum_congr rfl fun a _ => ?_
  by_cases h : a = b
  · simp [zeroDiag, h]
  · simp [zeroDiag, RijEps, h]

theorem gradVeeY_eps_indep {n : ℕ} (e₁ e₂ : ℝ) (x y : Fin n → ℝ) (b : Fin n) :
    gradVeeY e₁ x y b = gradVeeY e₂ x y b := by
  unfold gradVeeY
  refine Finset.sum_congr rfl fun a _ => ?_
  by_cases h : a = b
  · simp [zeroDiag, h]
  · simp [zeroDiag, RijEps, h]

theorem zeroDiag_Vee_eps_indep {n : ℕ} (e₁ e₂ : ℝ) (x y : Fin n → ℝ) :
    zeroDiag (Vee e₁ x y) = zeroDiag (Vee e₂ x y) := by
  funext a b
  by_cases h : a = b
  · simp [zeroDiag, h]
  · simp [zeroDiag, Vee, RijEps, h]

/-- C8: the pairwise contribution summed inside `Vtotal` is the sum of
only the off-diagonal `Vee` entries (the diagonal is zeroed before
summation), so `Vtotal` is independent of the diagonal placeholder `eps`;
and `grad_Vee` applies the same diagonal substitution and is likewise
independent of it. -/
theorem C8_eps_placeholder_inert {n : ℕ} (V : ℝ → ℝ → ℝ) (x y : Fin n → ℝ)
    (r : Fin (2 * n) → ℝ) (e₁ e₂ : ℝ) :
    (msum (zeroDiag (Vee e₁ x y)) =
      ∑ a : Fin n, ∑ b ∈ Finset.univ.erase a, Vee e₁ x y a b) ∧
    VtotalE V e₁ r = VtotalE V e₂ r ∧
    Vtotal V r = VtotalE V e₁ r ∧
    (∀ j, grad_Vee e₁ x y j = grad_Vee e₂ x y j) := by
  refine ⟨?_, ?_, ?_, ?_⟩
  · unfold msum
    refine Finset.sum_congr rfl fun a _ => ?_
    rw [← Finset.sum_erase _ (by rw [zeroDiag, if_pos rfl])]
    refine Finset.sum_congr rfl fun b hb => ?_
    rw [zeroDiag, if_neg (fun h => Finset.ne_of_mem_erase hb h.symm)]
  · unfold VtotalE
    rw [zeroDiag_Vee_eps_indep e₁ e₂]
  · unfold Vtotal VtotalE
    rw [zeroDiag_Vee_eps_indep 1e-15 e₁]
  · intro j
    unfold grad_Vee
    split
    · exact gradVeeX_eps_indep e₁ e₂ x y _
    · exact gradVeeY_eps_indep e₁ e₂ x y _

/-! ## C9: single charge -/

/-- C9: for a single charge the pairwise contribution to `Vtotal` and
every component of `grad_Vee` are exactly zero, while the denominator
actually placed on the (only) diagonal entry of the distance matrix is
the nonzero placeholder `eps`, not the zero self-distance. -/
theorem C9_single_charge (x y : Fin 1 → ℝ) (eps : ℝ) (V : ℝ → ℝ → ℝ)
    (r : Fin (2 * 1) → ℝ) :
    msum (zeroDiag (Vee eps x y)) = 0 ∧
    (∀ j : Fin (2 * 1), grad_Vee eps x y j = 0) ∧
    RijEps eps x y 0 0 = eps ∧
    Vtotal V r = Velectrostatic V (xs r) (ys r) / qe := by
  have hzd : ∀ M : Fin 1 → Fin 1 → ℝ, ∀ a b : Fin 1, zeroDiag M a b = 0 := by
    intro M a b
    rw [zeroDiag, if_pos (Subsingleton.elim a b)]
  refine ⟨?_, ?_, by rw [RijEps, if_pos rfl], ?_⟩
  · unfold msum
    simp [hzd]
  · intro j
    unfold grad_Vee
    split
    · unfold gradVeeX
      simp [hzd]
    · unfold gradVeeY
      simp [hzd]
  · unfold Vtotal VtotalE
    have : msum (zeroDiag (Vee 1e-15 (xs r) (ys r))) = 0 := by
      unfold msum
      simp [hzd]
    rw [this, add_zero]

/-! ## C4: periodic minimum image -/

/-- For two y-values in the periodic domain whose separation exceeds half
the domain length, the shifted y-difference squared is the wrapped
separation squared and is strictly smaller than the direct one. -/
theorem wrap_pair (L u w : ℝ) (hL : 0 < L) (hu : u ∈ Set.Ico (-(L / 2)) (L / 2))
    (hw : w ∈ Set.Ico (-(L / 2)) (L / 2)) (hsep : L / 2 < |u - w|) :
    (shiftY L u - shiftY L w) ^ 2 = (L - |u - w|) ^ 2 ∧
    (shiftY L u - shiftY L w) ^ 2 < (u - w) ^ 2 := by
  obtain ⟨hu1, hu2⟩ := hu
  obtain ⟨hw1, hw2⟩ := hw
  rcases lt_trichotomy u w with h | h | h
  · have habs : |u - w| = w - u := by rw [abs_of_neg (by linarith)]; ring
    rw [habs] at hsep ⊢
    have hwpos : 0 < w := by linarith
    have hunonpos : ¬(0 < u) := by intro hc; linarith
    rw [shiftY, shiftY, if_neg hunonpos, if_pos hwpos]
    constructor
    · ring
    · nlinarith
  · rw [h] at hsep
    simp at hsep
    linarith
  · have habs : |u - w| = u - w := abs_of_pos (by linarith)
    rw [habs] at hsep ⊢
    have hupos : 0 < u := by linarith
    have hwnonpos : ¬(0 < w) := by intro hc; linarith
    rw [shiftY, shiftY, if_pos hupos, if_neg hwnonpos]
    constructor
    · ring
    · nlinarith

/-- C4: for two charges with y-coordinates in the periodic domain whose
y-separation exceeds half the domain length, the off-diagonal entries of
`calculate_Rij` equal the wrapped separation
`sqrt(dx^2 + (box_y_length - dy)^2)` and are strictly smaller than the
direct Euclidean separation. -/
theorem C4_minimum_image (L : ℝ) (x y : Fin 2 → ℝ) (hL : 0 < L)
    (h0 : y 0 ∈ Set.Ico (-(L / 2)) (L / 2)) (h1 : y 1 ∈ Set.Ico (-(L / 2)) (L / 2))
    (hsep : L / 2 < |y 0 - y 1|) :
    ∀ i j : Fin 2, i ≠ j →
      calculate_Rij L x y i j = Real.sqrt ((x j - x i) ^ 2 + (L - |y i - y j|) ^ 2) ∧
      calculate_Rij L x y i j < Real.sqrt ((x j - x i) ^ 2 + (y i - y j) ^ 2) := by
  have key : ∀ i j : Fin 2, y i ∈ Set.Ico (-(L / 2)) (L / 2) →
      y j ∈ Set.Ico (-(L / 2)) (L / 2) → L / 2 < |y i - y j| →
      calculate_Rij L x y i j = Real.sqrt ((x j - x i) ^ 2 + (L - |y i - y j|) ^ 2) ∧
      calculate_Rij L x y i j < Real.sqrt ((x j - x i) ^ 2 + (y i - y j) ^ 2) := by
    intro i j hi hj hij
    obtain ⟨heq, hlt⟩ := wrap_pair L (y i) (y j) hL hi hj hij
    constructor
    · rw [calculate_Rij_eq_sqrt_min, min_eq_right hlt.le, heq]
    · rw [calculate_Rij_eq_sqrt_min, min_eq_right hlt.le]
      exact Real.sqrt_lt_sqrt (by positivity) (by linarith)
  intro i j hij
  fin_cases i <;> fin_cases j
  · exact absurd rfl hij
  · exact key 0 1 h0 h1 hsep
  · exact key 1 0 h1 h0 (by rw [abs_sub_comm]; exact hsep)
  · exact absurd rfl hij

/-- C4 witness: the minimum-image facts at a concrete configuration
(`L = 2`, y-coordinates `-9/10` and `9/10`). -/
theorem C4_minimum_image_witness :
    calculate_Rij 2 (fun _ : Fin 2 => (0 : ℝ))
        (fun j => if j.val = 0 then -(9 / 10) else 9 / 10) 0 1 =
      Real.sqrt (((0 : ℝ) - 0) ^ 2 + (2 - |(-(9 / 10) : ℝ) - 9 / 10|) ^ 2) ∧
    calculate_Rij 2 (fun _ : Fin 2 => (0 : ℝ))
        (fun j => if j.val = 0 then -(9 / 10) else 9 / 10) 0 1 <
      Real.sqrt (((0 : ℝ) - 0) ^ 2 + ((-(9 / 10) : ℝ) - 9 / 10) ^ 2) :=
  C4_minimum_image 2 (fun _ => 0) (fun j => if j.val = 0 then -(9 / 10) else 9 / 10)
    (by norm_num) (by norm_num) (by norm_num) (by norm_num [abs_of_pos])
    (0 : Fin 2) (1 : Fin 2) (by decide)

/-! ## Gradient slot lemmas -/

theorem grad_Vee_ix {n : ℕ} (eps : ℝ) (x y : Fin n → ℝ) (k : Fin n) :
    grad_Vee eps x y (ix k) = gradVeeX eps x y k := by
  have hmod : 2 * k.val % 2 = 0 := Nat.mul_mod_right 2 k.val
  have hdiv : 2 * k.val / 2 = k.val := Nat.mul_div_cancel_left k.val (by norm_num)
  unfold grad_Vee ix
  simp only [hmod, hdiv, if_true, reduceIte, Fin.eta]

theorem grad_Vee_iy {n : ℕ} (eps : ℝ) (x y : Fin n → ℝ) (k : Fin n) :
    grad_Vee eps x y (iy k) = gradVeeY eps x y k := by
  have hmod : (2 * k.val + 1) % 2 = 1 := by omega
  have hdiv : (2 * k.val + 1) / 2 = k.val := by omega
  unfold grad_Vee iy
  simp only [hmod, hdiv, Fin.eta]
  norm_num

theorem grad_total_ix {n : ℕ} (dVdx dVdy : ℝ → ℝ → ℝ) (r : Fin (2 * n) → ℝ) (k : Fin n) :
    grad_total dVdx dVdy r (ix k) =
      dVdx (xs r k) (ys r k) + gradVeeX 1e-15 (xs r) (ys r) k / qe := by
  have hmod : 2 * k.val % 2 = 0 := Nat.mul_mod_right 2 k.val
  have hdiv : 2 * k.val / 2 = k.val := Nat.mul_div_cancel_left k.val (by norm_num)
  unfold grad_total
  rw [grad_Vee_ix]
  unfold ix
  simp only [hmod, hdiv, if_true, reduceIte, Fin.eta]

theorem grad_total_iy {n : ℕ} (dVdx dVdy : ℝ → ℝ → ℝ) (r : Fin (2 * n) → ℝ) (k : Fin n) :
    grad_total dVdx dVdy r (iy k) =
      dVdy (xs r k) (ys r k) + gradVeeY 1e-15 (xs r) (ys r) k / qe := by
  have hmod : (2 * k.val + 1) % 2 = 1 := by omega
  have hdiv : (2 * k.val + 1) / 2 = k.val := by omega
  unfold grad_total
  rw [grad_Vee_iy]
  unfold iy
  simp only [hmod, hdiv, Fin.eta]
  norm_num

theorem grad_VeeRS_ix {n : ℕ} (eps L : ℝ) (x y : Fin n → ℝ) (k : Fin n) :
    grad_VeeRS eps L x y (ix k) = gradVeeXRS eps L x y k := by
  have hmod : 2 * k.val % 2 = 0 := Nat.mul_mod_right 2 k.val
  have hdiv : 2 * k.val / 2 = k.val := Nat.mul_div_cancel_left k.val (by norm_num)
  unfold grad_VeeRS ix
  simp only [hmod, hdiv, if_true, reduceIte, Fin.eta]

theorem grad_VeeRS_iy {n : ℕ} (eps L : ℝ) (x y : Fin n → ℝ) (k : Fin n) :
    grad_VeeRS eps L x y (iy k) = gradVeeYRS eps L x y k := by
  have hmod : (2 * k.val + 1) % 2 = 1 := by omega
  have hdiv : (2 * k.val + 1) / 2 = k.val := by omega
  unfold grad_VeeRS iy
  simp only [hmod, hdiv, Fin.eta]
  norm_num

theorem grad_totalRS_ix {n : ℕ} (dV : ℝ → ℝ) (L : ℝ) (r : Fin (2 * n) → ℝ) (k : Fin n) :
    grad_totalRS dV L r (ix k) =
      dV (xs r k) + gradVeeXRS 1e-15 L (xs r) (ys r) k / qe := by
  have hmod : 2 * k.val % 2 = 0 := Nat.mul_mod_right 2 k.val
  have hdiv : 2 * k.val / 2 = k.val := Nat.mul_div_cancel_left k.val (by norm_num)
  unfold grad_totalRS
  rw [grad_VeeRS_ix]
  unfold ix
  simp only [hmod, hdiv, if_true, reduceIte, Fin.eta]

theorem grad_totalRS_iy {n : ℕ} (dV : ℝ → ℝ) (L : ℝ) (r : Fin (2 * n) → ℝ) (k : Fin n) :
    grad_totalRS dV L r (iy k) = 0 + gradVeeYRS 1e-15 L (xs r) (ys r) k / qe := by
  have hmod : (2 * k.val + 1) % 2 = 1 := by omega
  unfold grad_totalRS
  rw [grad_VeeRS_iy]
  unfold iy
  simp only [hmod]
  norm_num

/-! ## C5: two charges one micron apart in zero field -/

theorem msum_zeroDiag_two (M : Fin 2 → Fin 2 → ℝ) :
    msum (zeroDiag M) = M 0 1 + M 1 0 := by
  unfold msum zeroDiag
  rw [Fin.sum_univ_two]
  rw [Fin.sum_univ_two, Fin.sum_univ_two]
  norm_num

theorem rMicron_eval :
    xs rMicron 0 = 0 ∧ xs rMicron 1 = 1e-6 ∧ ys rMicron 0 = 0 ∧ ys rMicron 1 = 0 := by
  refine ⟨?_, ?_, ?_, ?_⟩ <;> norm_num [xs, ys, ix, iy, rMicron]

theorem Rij_rMicron :
    Rij (xs rMicron) (ys rMicron) 0 1 = 1e-6 ∧ Rij (xs rMicron) (ys rMicron) 1 0 = 1e-6 := by
  obtain ⟨h0, h1, h2, h3⟩ := rMicron_eval
  constructor
  · unfold Rij
    rw [h0, h1, h2, h3]
    rw [show ((1e-6 : ℝ) - 0) ^ 2 + (0 - 0) ^ 2 = (1e-6) ^ 2 by norm_num]
    exact Real.sqrt_sq (by norm_num)
  · unfold Rij
    rw [h0, h1, h2, h3]
    rw [show ((0 : ℝ) - 1e-6) ^ 2 + (0 - 0) ^ 2 = (1e-6) ^ 2 by norm_num]
    exact Real.sqrt_sq (by norm_num)

theorem Vtotal_rMicron_eval :
    Vtotal Vzero2 rMicron = 1 / (4 * Real.pi * eps0) * qe / 1e-6 := by
  obtain ⟨hr0, hr1⟩ := Rij_rMicron
  unfold Vtotal VtotalE
  rw [msum_zeroDiag_two]
  unfold Velectrostatic Vee RijEps
  rw [if_neg (by decide : ¬(0 : Fin 2) = 1), if_neg (by decide : ¬(1 : Fin 2) = 0), hr0, hr1]
  rw [show (∑ i : Fin 2, Vzero2 (xs rMicron i) (ys rMicron i)) = 0 by
    rw [Fin.sum_univ_two]; unfold Vzero2; norm_num]
  have hqe := qe_pos.ne'
  have hpi := Real.pi_ne_zero
  have he0 := eps0_pos.ne'
  field_simp
  ring

theorem gradVee_rMicron :
    gradVeeX 1e-15 (xs rMicron) (ys rMicron) 0 = qe ^ 2 / (4 * Real.pi * eps0) * 1e12 ∧
    gradVeeX 1e-15 (xs rMicron) (ys rMicron) 1 = -(qe ^ 2 / (4 * Real.pi * eps0) * 1e12) ∧
    gradVeeY 1e-15 (xs rMicron) (ys rMicron) 0 = 0 ∧
    gradVeeY 1e-15 (xs rMicron) (ys rMicron) 1 = 0 := by
  obtain ⟨h0, h1, h2, h3⟩ := rMicron_eval
  obtain ⟨hr0, hr1⟩ := Rij_rMicron
  have hd01 : ¬(0 : Fin 2) = 1 := by decide
  have hd10 : ¬(1 : Fin 2) = 0 := by decide
  refine ⟨?_, ?_, ?_, ?_⟩ <;>
    · simp only [gradVeeX, gradVeeY, zeroDiag, RijEps]
      rw [Fin.sum_univ_two]
      simp only [if_pos rfl, if_neg hd01, if_neg hd10, hr0, hr1, h0, h1, h2, h3]
      norm_num
      try ring

/-- C5 counterexample: at the configuration of two charges at `(0, 0)`
and `(1e-6, 0)` in an identically zero external field, `Vtotal` does not
equal the spec value `k*qe/(2*1e-6)` with `k = 1/(4*pi*eps0)` (the code
computes twice that value: the `1/2` double-counting factor is cancelled
because the sum counts every ordered pair). -/
theorem C5_energy_counterexample :
    Vtotal Vzero2 rMicron ≠ 1 / (4 * Real.pi * eps0) * qe / (2 * 1e-6) := by
  rw [Vtotal_rMicron_eval]
  intro h
  have ha : 0 < 1 / (4 * Real.pi * eps0) * qe :=
    mul_pos (div_pos one_pos (mul_pos (mul_pos (by norm_num) Real.pi_pos) eps0_pos)) qe_pos
  rw [div_eq_div_iff (by norm_num) (by norm_num)] at h
  nlinarith

/-- C5 amended: at the two-charge scenario the energy equals
`k*qe/1e-6` (not `k*qe/(2*1e-6)`) in eV-normalized units with
`k = 1/(4*pi*eps0)`, and the gradient has x-components of equal magnitude
and opposite sign pointing the charges apart, with zero y-components. -/
theorem C5_two_charge_scenario_amended :
    Vtotal Vzero2 rMicron = 1 / (4 * Real.pi * eps0) * qe / 1e-6 ∧
    grad_total Vzero2 Vzero2 rMicron (ix 0) = -(grad_total Vzero2 Vzero2 rMicron (ix 1)) ∧
    0 < grad_total Vzero2 Vzero2 rMicron (ix 0) ∧
    grad_total Vzero2 Vzero2 rMicron (iy 0) = 0 ∧
    grad_total Vzero2 Vzero2 rMicron (iy 1) = 0 := by
  obtain ⟨hx0, hx1, hy0, hy1⟩ := gradVee_rMicron
  rw [grad_total_ix, grad_total_ix, grad_total_iy, grad_total_iy, hx0, hx1, hy0, hy1]
  unfold Vzero2
  refine ⟨Vtotal_rMicron_eval, by ring, ?_, by ring, by ring⟩
  have hc := coulomb_pos
  have hq := qe_pos
  positivity

/-! ## Updating one coordinate slot of a position vector -/

theorem xs_update_ix {n : ℕ} (r : Fin (2 * n) → ℝ) (k : Fin n) (t : ℝ) :
    xs (Function.update r (ix k) t) = Function.update (xs r) k t := by
  funext j
  unfold xs
  rw [Function.update_apply, Function.update_apply]
  by_cases h : j = k
  · subst h
    rw [if_pos rfl, if_pos rfl]
  · rw [if_neg ?_, if_neg h]
    intro hc
    have h2 := congrArg Fin.val hc
    simp only [ix] at h2
    exact h (Fin.ext (by omega))

theorem ys_update_ix {n : ℕ} (r : Fin (2 * n) → ℝ) (k : Fin n) (t : ℝ) :
    ys (Function.update r (ix k) t) = ys r := by
  funext j
  unfold ys
  rw [Function.update_apply, if_neg]
  intro hc
  have h2 := congrArg Fin.val hc
  simp only [iy, ix] at h2
  omega

theorem xs_update_iy {n : ℕ} (r : Fin (2 * n) → ℝ) (k : Fin n) (t : ℝ) :
    xs (Function.update r (iy k) t) = xs r := by
  funext j
  unfold xs
  rw [Function.update_apply, if_neg]
  intro hc
  have h2 := congrArg Fin.val hc
  simp only [iy, ix] at h2
  omega

theorem ys_update_iy {n : ℕ} (r : Fin (2 * n) → ℝ) (k : Fin n) (t : ℝ) :
    ys (Function.update r (iy k) t) = Function.update (ys r) k t := by
  funext j
  unfold ys
  rw [Function.update_apply, Function.update_apply]
  by_cases h : j = k
  · subst h
    rw [if_pos rfl, if_pos rfl]
  · rw [if_neg ?_, if_neg h]
    intro hc
    have h2 := congrArg Fin.val hc
    simp only [iy] at h2
    exact h (Fin.ext (by omega))

/-- Derivative of a sum over charges when only charge `k`'s coordinate
varies. -/
theorem hasDerivAt_sum_update {n : ℕ} (f : Fin n → ℝ → ℝ) (x : Fin n → ℝ) (k : Fin n) (d : ℝ)
    (hk : HasDerivAt (f k) d (x k)) :
    HasDerivAt (fun t => ∑ i : Fin n, f i (Function.update x k t i)) d (x k) := by
  have hterms : ∀ i ∈ (Finset.univ : Finset (Fin n)),
      HasDerivAt ((fun i t => f i (Function.update x k t i)) i)
        ((fun i => if i = k then d else 0) i) (x k) := ?_
  · have h := HasDerivAt.sum hterms
    have hv : (∑ i : Fin n, if i = k then d else 0) = d := by
      rw [Finset.sum_ite_eq' Finset.univ k fun _ => d, if_pos (Finset.mem_univ k)]
    rw [hv] at h
    exact h
  · intro i _
    by_cases hik : i = k
    · subst hik
      show HasDerivAt (fun t => f i (Function.update x i t i)) (if i = i then d else 0) (x i)
      rw [if_pos rfl]
      have hfun : (fun t => f i (Function.update x i t i)) = fun t => f i t := by
        funext t
        rw [Function.update_same]
      rw [hfun]
      exact hk
    · show HasDerivAt (fun t => f i (Function.update x k t i)) (if i = k then d else 0) (x k)
      rw [if_neg hik]
      have hfun : (fun t => f i (Function.update x k t i)) = fun _ => f i (x i) := by
        funext t
        rw [Function.update_noteq hik]
      rw [hfun]
      exact hasDerivAt_const _ _

/-! ## Exact derivative of the unconstrained pairwise energy -/

/-- Packaged form of `hasDerivAt_inv_sqrt` for a Coulomb term whose
distance function `F` agrees with `sqrt (A + (t - K)^2)` and whose value
at the point is the matrix entry `R`. -/
theorem hasDerivAt_coulomb_slot (Cst A K t0 : ℝ) {R : ℝ} (F : ℝ → ℝ)
    (hq : 0 < A + (t0 - K) ^ 2)
    (hFfun : ∀ t, F t = Real.sqrt (A + (t - K) ^ 2))
    (hR : Real.sqrt (A + (t0 - K) ^ 2) = R) :
    HasDerivAt (fun t => Cst * (1 / F t)) (-(Cst * (t0 - K)) / R ^ 3) t0 := by
  have h := hasDerivAt_inv_sqrt Cst A K t0 hq
  rw [hR] at h
  have hfun : (fun t => Cst * (1 / F t)) =
      fun t => Cst * (1 / Real.sqrt (A + (t - K) ^ 2)) := by
    funext t
    rw [hFfun t]
  rw [hfun]
  exact h

theorem hasDerivAt_pairsum_x {n : ℕ} (eps : ℝ) (x y : Fin n → ℝ) (k : Fin n)
    (hd : ∀ a b : Fin n, a ≠ b → Rij x y a b ≠ 0) :
    HasDerivAt (fun t => msum (zeroDiag (Vee eps (Function.update x k t) y)))
      (gradVeeX eps x y k) (x k) := by
  have hterm : ∀ a b : Fin n,
      HasDerivAt (fun t => zeroDiag (Vee eps (Function.update x k t) y) a b)
        (if a = b then 0 else
          if b = k then -(1 / 2 * qe ^ 2 / (4 * Real.pi * eps0) * (x k - x a)) / Rij x y a b ^ 3
          else if a = k then
            -(1 / 2 * qe ^ 2 / (4 * Real.pi * eps0) * (x k - x b)) / Rij x y a b ^ 3
          else 0) (x k) := by
    intro a b
    by_cases hab : a = b
    · rw [if_pos hab]
      have hfun : (fun t => zeroDiag (Vee eps (Function.update x k t) y) a b) =
          fun _ => 0 := by
        funext t
        rw [zeroDiag, if_pos hab]
      rw [hfun]
      exact hasDerivAt_const _ _
    · rw [if_neg hab]
      have hfun0 : (fun t => zeroDiag (Vee eps (Function.update x k t) y) a b) =
          fun t => 1 / 2 * qe ^ 2 / (4 * Real.pi * eps0) *
            (1 / Rij (Function.update x k t) y a b) := by
        funext t
        rw [zeroDiag, if_neg hab, Vee, RijEps, if_neg hab]
      rw [hfun0]
      by_cases hbk : b = k
      · rw [if_pos hbk]
        have hak : a ≠ k := fun h => hab (h.trans hbk.symm)
        have h1 := Rij_arg_pos (hd a b hab)
        have h2 : (x b - x a) ^ 2 = (x k - x a) ^ 2 := by rw [hbk]
        rw [h2] at h1
        refine hasDerivAt_coulomb_slot _ ((y a - y b) ^ 2) (x a) (x k)
          (fun t => Rij (Function.update x k t) y a b) (by linarith) ?_ ?_
        · intro t
          show Rij (Function.update x k t) y a b =
            Real.sqrt ((y a - y b) ^ 2 + (t - x a) ^ 2)
          unfold Rij
          rw [hbk, Function.update_same, Function.update_noteq hak]
          congr 1
          ring
        · unfold Rij
          congr 1
          rw [hbk]
          ring
      · rw [if_neg hbk]
        by_cases hak : a = k
        · rw [if_pos hak]
          have hbk' : b ≠ k := fun h => hab (hak.trans h.symm)
          have h1 := Rij_arg_pos (hd a b hab)
          have h2 : (x b - x a) ^ 2 = (x k - x b) ^ 2 := by rw [hak]; ring
          rw [h2] at h1
          refine hasDerivAt_coulomb_slot _ ((y a - y b) ^ 2) (x b) (x k)
            (fun t => Rij (Function.update x k t) y a b) (by linarith) ?_ ?_
          · intro t
            show Rij (Function.update x k t) y a b =
              Real.sqrt ((y a - y b) ^ 2 + (t - x b) ^ 2)
            unfold Rij
            rw [hak, Function.update_same, Function.update_noteq hbk']
            congr 1
            ring
          · unfold Rij
            congr 1
            rw [hak]
            ring
        · rw [if_neg hak]
          have hfun : (fun t => 1 / 2 * qe ^ 2 / (4 * Real.pi * eps0) *
              (1 / Rij (Function.update x k t) y a b)) =
              fun _ => 1 / 2 * qe ^ 2 / (4 * Real.pi * eps0) * (1 / Rij x y a b) := by
            funext t
            rw [show Rij (Function.update x k t) y a b = Rij x y a b from by
              unfold Rij
              rw [Function.update_noteq hak, Function.update_noteq hbk]]
          rw [hfun]
          exact hasDerivAt_const _ _
  have hsum := HasDerivAt.sum (u := Finset.univ)
    (A := fun a t => ∑ b : Fin n, zeroDiag (Vee eps (Function.update x k t) y) a b)
    (x := x k) (fun a _ => HasDerivAt.sum (fun b _ => hterm a b))
  have hval : (∑ a : Fin n, ∑ b : Fin n,
      (if a = b then 0 else
        if b = k then -(1 / 2 * qe ^ 2 / (4 * Real.pi * eps0) * (x k - x a)) / Rij x y a b ^ 3
        else if a = k then
          -(1 / 2 * qe ^ 2 / (4 * Real.pi * eps0) * (x k - x b)) / Rij x y a b ^ 3
        else 0)) = gradVeeX eps x y k := by
    rw [double_sum_offdiag k (fun a => -(1 / 2 * qe ^ 2 / (4 * Real.pi * eps0) * (x k - x a)))
      (fun a b => Rij x y a b ^ 3) (fun a b => by
        show Rij x y a b ^ 3 = Rij x y b a ^ 3
        rw [Rij_symm])]
    unfold gradVeeX
    refine Finset.sum_congr rfl fun a _ => ?_
    by_cases hak : a = k
    · simp [zeroDiag, hak]
    · simp only [zeroDiag, RijEps, hak, if_neg hak, if_false]
      ring
  rw [← hval]
  exact hsum

theorem hasDerivAt_pairsum_y {n : ℕ} (eps : ℝ) (x y : Fin n → ℝ) (k : Fin n)
    (hd : ∀ a b : Fin n, a ≠ b → Rij x y a b ≠ 0) :
    HasDerivAt (fun t => msum (zeroDiag (Vee eps x (Function.update y k t))))
      (gradVeeY eps x y k) (y k) := by
  have hterm : ∀ a b : Fin n,
      HasDerivAt (fun t => zeroDiag (Vee eps x (Function.update y k t)) a b)
        (if a = b then 0 else
          if b = k then -(1 / 2 * qe ^ 2 / (4 * Real.pi * eps0) * (y k - y a)) / Rij x y a b ^ 3
          else if a = k then
            -(1 / 2 * qe ^ 2 / (4 * Real.pi * eps0) * (y k - y b)) / Rij x y a b ^ 3
          else 0) (y k) := by
    intro a b
    by_cases hab : a = b
    · rw [if_pos hab]
      have hfun : (fun t => zeroDiag (Vee eps x (Function.update y k t)) a b) =
          fun _ => 0 := by
        funext t
        rw [zeroDiag, if_pos hab]
      rw [hfun]
      exact hasDerivAt_const _ _
    · rw [if_neg hab]
      have hfun0 : (fun t => zeroDiag (Vee eps x (Function.update y k t)) a b) =
          fun t => 1 / 2 * qe ^ 2 / (4 * Real.pi * eps0) *
            (1 / Rij x (Function.update y k t) a b) := by
        funext t
        rw [zeroDiag, if_neg hab, Vee, RijEps, if_neg hab]
      rw [hfun0]
      by_cases hbk : b = k
      · rw [if_pos hbk]
        have hak : a ≠ k := fun h => hab (h.trans hbk.symm)
        have h1 := Rij_arg_pos (hd a b hab)
        have h2 : (y a - y b) ^ 2 = (y k - y a) ^ 2 := by rw [hbk]; ring
        rw [h2] at h1
        refine hasDerivAt_coulomb_slot _ ((x b - x a) ^ 2) (y a) (y k)
          (fun t => Rij x (Function.update y k t) a b) (by linarith) ?_ ?_
        · intro t
          show Rij x (Function.update y k t) a b =
            Real.sqrt ((x b - x a) ^ 2 + (t - y a) ^ 2)
          unfold Rij
          rw [hbk, Function.update_same, Function.update_noteq hak]
          congr 1
          ring
        · unfold Rij
          congr 1
          rw [hbk]
          ring
      · rw [if_neg hbk]
        by_cases hak : a = k
        · rw [if_pos hak]
          have hbk' : b ≠ k := fun h => hab (hak.trans h.symm)
          have h1 := Rij_arg_pos (hd a b hab)
          have h2 : (y a - y b) ^ 2 = (y k - y b) ^ 2 := by rw [hak]
          rw [h2] at h1
          refine hasDerivAt_coulomb_slot _ ((x b - x a) ^ 2) (y b) (y k)
            (fun t => Rij x (Function.update y k t) a b) (by linarith) ?_ ?_
          · intro t
            show Rij x (Function.update y k t) a b =
              Real.sqrt ((x b - x a) ^ 2 + (t - y b) ^ 2)
            unfold Rij
            rw [hak, Function.update_same, Function.update_noteq hbk']
          · unfold Rij
            congr 1
            rw [hak]
        · rw [if_neg hak]
          have hfun : (fun t => 1 / 2 * qe ^ 2 / (4 * Real.pi * eps0) *
              (1 / Rij x (Function.update y k t) a b)) =
              fun _ => 1 / 2 * qe ^ 2 / (4 * Real.pi * eps0) * (1 / Rij x y a b) := by
            funext t
            rw [show Rij x (Function.update y k t) a b = Rij x y a b from by
              unfold Rij
              rw [Function.update_noteq hak, Function.update_noteq hbk]]
          rw [hfun]
          exact hasDerivAt_const _ _
  have hsum := HasDerivAt.sum (u := Finset.univ)
    (A := fun a t => ∑ b : Fin n, zeroDiag (Vee eps x (Function.update y k t)) a b)
    (x := y k) (fun a _ => HasDerivAt.sum (fun b _ => hterm a b))
  have hval : (∑ a : Fin n, ∑ b : Fin n,
      (if a = b then 0 else
        if b = k then -(1 / 2 * qe ^ 2 / (4 * Real.pi * eps0) * (y k - y a)) / Rij x y a b ^ 3
        else if a = k then
          -(1 / 2 * qe ^ 2 / (4 * Real.pi * eps0) * (y k - y b)) / Rij x y a b ^ 3
        else 0)) = gradVeeY eps x y k := by
    rw [double_sum_offdiag k (fun a => -(1 / 2 * qe ^ 2 / (4 * Real.pi * eps0) * (y k - y a)))
      (fun a b => Rij x y a b ^ 3) (fun a b => by
        show Rij x y a b ^ 3 = Rij x y b a ^ 3
        rw [Rij_symm])]
    unfold gradVeeY
    refine Finset.sum_congr rfl fun a _ => ?_
    by_cases hak : a = k
    · simp [zeroDiag, hak]
    · simp only [zeroDiag, RijEps, hak, if_neg hak, if_false]
      ring
  rw [← hval]
  exact hsum

/-! ## Modular arithmetic of the periodic map -/

theorem rmod_nonneg (a L : ℝ) (hL : 0 < L) : 0 ≤ rmod a L := by
  unfold rmod
  have h := Int.floor_le (a / L)
  have h2 : L * (⌊a / L⌋ : ℝ) ≤ L * (a / L) := mul_le_mul_of_nonneg_left h hL.le
  have h3 : L * (a / L) = a := by field_simp
  linarith

theorem rmod_lt (a L : ℝ) (hL : 0 < L) : rmod a L < L := by
  unfold rmod
  have h := Int.lt_floor_add_one (a / L)
  have h2 : L * (a / L) < L * ((⌊a / L⌋ : ℝ) + 1) := by
    exact mul_lt_mul_of_pos_left h hL
  have h3 : L * (a / L) = a := by field_simp
  nlinarith

theorem rmod_add_int (a L : ℝ) (hL : L ≠ 0) (m : ℤ) : rmod (a + L * m) L = rmod a L := by
  unfold rmod
  have h : (a + L * m) / L = a / L + m := by field_simp; ring
  rw [h, Int.floor_add_int]
  push_cast
  ring

theorem rmod_eq_self (a L : ℝ) (hL : 0 < L) (h0 : 0 ≤ a) (h1 : a < L) : rmod a L = a := by
  unfold rmod
  have h : ⌊a / L⌋ = 0 := by
    rw [Int.floor_eq_zero_iff]
    exact ⟨div_nonneg h0 hL.le, by rwa [div_lt_one hL]⟩
  rw [h]
  push_cast
  ring

theorem map_y_eq (L y : ℝ) : map_y_into_domain L y = -(L / 2) + rmod (y + L / 2) L := by
  unfold map_y_into_domain
  rw [show y - -(L / 2) = y + L / 2 from by ring, show L / 2 - -(L / 2) = L from by ring]

theorem map_mem_Ico (L y : ℝ) (hL : 0 < L) :
    map_y_into_domain L y ∈ Set.Ico (-(L / 2)) (L / 2) := by
  rw [map_y_eq]
  constructor
  · have := rmod_nonneg (y + L / 2) L hL
    linarith
  · have := rmod_lt (y + L / 2) L hL
    linarith

theorem map_sub_int (L y : ℝ) : ∃ m : ℤ, map_y_into_domain L y = y - L * m := by
  refine ⟨⌊(y + L / 2) / L⌋, ?_⟩
  rw [map_y_eq]
  unfold rmod
  ring

/-- Lemma A: on the mapped domain, the minimum of the direct and shifted
squared y-differences is the squared minimum-image distance. -/
theorem sq_min_eq (L u w : ℝ) (hL : 0 < L) (hu : u ∈ Set.Ico (-(L / 2)) (L / 2))
    (hw : w ∈ Set.Ico (-(L / 2)) (L / 2)) :
    min ((u - w) ^ 2) ((shiftY L u - shiftY L w) ^ 2) =
      min (|u - w|) (L - |u - w|) ^ 2 := by
  obtain ⟨hu1, hu2⟩ := hu
  obtain ⟨hw1, hw2⟩ := hw
  by_cases hup : 0 < u <;> by_cases hwp : 0 < w
  · rw [shiftY, if_pos hup, shiftY, if_pos hwp,
      show u - L - (w - L) = u - w from by ring, min_self]
    have habs : |u - w| < L / 2 := abs_lt.mpr ⟨by linarith, by linarith⟩
    rw [min_eq_left (by linarith), sq_abs]
  · rw [shiftY, if_pos hup, shiftY, if_neg hwp]
    push_neg at hwp
    have habs : |u - w| = u - w := abs_of_pos (by linarith)
    rw [habs, show u - L - w = u - w - L from by ring]
    rcases le_total (u - w) (L - (u - w)) with h | h
    · rw [min_eq_left (by nlinarith), min_eq_left h]
    · rw [min_eq_right (by nlinarith), min_eq_right h]
      ring
  · rw [shiftY, if_neg hup, shiftY, if_pos hwp]
    push_neg at hup
    have habs : |u - w| = -(u - w) := abs_of_neg (by linarith)
    rw [habs, show u - (w - L) = u - w + L from by ring]
    rcases le_total (-(u - w)) (L - -(u - w)) with h | h
    · rw [min_eq_left (by nlinarith), min_eq_left h]
      ring
    · rw [min_eq_right (by nlinarith), min_eq_right h]
      ring
  · rw [shiftY, if_neg hup, shiftY, if_neg hwp, min_self]
    push_neg at hup hwp
    have habs : |u - w| ≤ L / 2 := abs_le.mpr ⟨by linarith, by linarith⟩
    rw [min_eq_left (by linarith), sq_abs]

/-- The squared minimum-image difference as a periodic function of the
raw (unmapped) coordinate. -/
theorem minimage_rho (L w t : ℝ) (hL : 0 < L) (hw : w ∈ Set.Ico (-(L / 2)) (L / 2)) :
    min ((map_y_into_domain L t - w) ^ 2)
      ((shiftY L (map_y_into_domain L t) - shiftY L w) ^ 2) =
      min (rmod (t - w) L) (L - rmod (t - w) L) ^ 2 := by
  have hu := map_mem_Ico L t hL
  rw [sq_min_eq L _ w hL hu hw]
  obtain ⟨m, hm⟩ := map_sub_int L t
  have hρ : rmod (t - w) L = rmod (map_y_into_domain L t - w) L := by
    rw [hm, show t - L * m - w = t - w + L * (-m : ℤ) from by push_cast; ring,
      rmod_add_int _ _ hL.ne' (-m)]
  rw [hρ]
  obtain ⟨hu1, hu2⟩ := hu
  obtain ⟨hw1, hw2⟩ := hw
  congr 1
  rcases le_or_lt 0 (map_y_into_domain L t - w) with h0 | h0
  · rw [rmod_eq_self _ L hL h0 (by linarith), abs_of_nonneg h0]
  · have hr : rmod (map_y_into_domain L t - w) L = map_y_into_domain L t - w + L := by
      rw [show map_y_into_domain L t - w = (map_y_into_domain L t - w + L) + L * (-1 : ℤ) from by
        push_cast; ring, rmod_add_int _ _ hL.ne',
        rmod_eq_self _ L hL (by linarith) (by linarith)]
      push_cast
      ring
    rw [hr, abs_of_neg h0,
      show L - -(map_y_into_domain L t - w) = map_y_into_domain L t - w + L from by ring,
      show L - (map_y_into_domain L t - w + L) = -(map_y_into_domain L t - w) from by ring,
      min_comm]

/-- The representative selected by `calculate_YiYj` is within half a
period of zero and differs from the direct mapped difference by a
multiple of the period. -/
theorem sel_bound (L u w : ℝ) (hL : 0 < L) (hu : u ∈ Set.Ico (-(L / 2)) (L / 2))
    (hw : w ∈ Set.Ico (-(L / 2)) (L / 2)) (htie : |u - w| ≠ L / 2) :
    |(if (shiftY L u - shiftY L w) ^ 2 < (u - w) ^ 2 then shiftY L u - shiftY L w
      else u - w)| < L / 2 ∧
    ∃ ms : ℤ, (if (shiftY L u - shiftY L w) ^ 2 < (u - w) ^ 2 then shiftY L u - shiftY L w
      else u - w) = u - w - L * ms := by
  obtain ⟨hu1, hu2⟩ := hu
  obtain ⟨hw1, hw2⟩ := hw
  by_cases hup : 0 < u <;> by_cases hwp : 0 < w
  · rw [shiftY, if_pos hup, shiftY, if_pos hwp,
      show u - L - (w - L) = u - w from by ring, if_neg (lt_irrefl _)]
    exact ⟨abs_lt.mpr ⟨by linarith, by linarith⟩, 0, by push_cast; ring⟩
  · rw [shiftY, if_pos hup, shiftY, if_neg hwp]
    push_neg at hwp
    have habs : |u - w| = u - w := abs_of_pos (by linarith)
    rw [habs] at htie
    rw [show u - L - w = u - w - L from by ring]
    by_cases hcmp : (u - w - L) ^ 2 < (u - w) ^ 2
    · rw [if_pos hcmp]
      have hgt : L / 2 < u - w := by nlinarith
      exact ⟨abs_lt.mpr ⟨by linarith, by linarith⟩, 1, by push_cast; ring⟩
    · rw [if_neg hcmp]
      push_neg at hcmp
      have hle : u - w ≤ L / 2 := by nlinarith
      have hlt : u - w < L / 2 := lt_of_le_of_ne hle htie
      exact ⟨abs_lt.mpr ⟨by linarith, hlt⟩, 0, by push_cast; ring⟩
  · rw [shiftY, if_neg hup, shiftY, if_pos hwp]
    push_neg at hup
    have habs : |u - w| = -(u - w) := abs_of_neg (by linarith)
    rw [habs] at htie
    rw [show u - (w - L) = u - w + L from by ring]
    by_cases hcmp : (u - w + L) ^ 2 < (u - w) ^ 2
    · rw [if_pos hcmp]
      have hlt : u - w < -(L / 2) := by nlinarith
      exact ⟨abs_lt.mpr ⟨by linarith, by linarith⟩, -1, by push_cast; ring⟩
    · rw [if_neg hcmp]
      push_neg at hcmp
      have hge : -(L / 2) ≤ u - w := by nlinarith
      have hgt : -(L / 2) < u - w :=
        lt_of_le_of_ne hge fun h => htie (by rw [← h]; ring)
      exact ⟨abs_lt.mpr ⟨hgt, by linarith⟩, 0, by push_cast; ring⟩
  · rw [shiftY, if_neg hup, shiftY, if_neg hwp, if_neg (lt_irrefl _)]
    push_neg at hup hwp
    have habs : |u - w| ≤ L / 2 := abs_le.mpr ⟨by linarith, by linarith⟩
    exact ⟨lt_of_le_of_ne habs htie, 0, by push_cast; ring⟩

/-- Local master lemma: away from a wrap tie, the squared minimum-image
difference is locally the square of the distance to a fixed
representative `K`, and `t0 - K` is exactly the representative that
`calculate_YiYj` selects. -/
theorem minimage_local (L w t0 : ℝ) (hL : 0 < L) (hw : w ∈ Set.Ico (-(L / 2)) (L / 2))
    (htie : |map_y_into_domain L t0 - w| ≠ L / 2) :
    ∃ K : ℝ,
      t0 - K = (if (shiftY L (map_y_into_domain L t0) - shiftY L w) ^ 2 <
            (map_y_into_domain L t0 - w) ^ 2
          then shiftY L (map_y_into_domain L t0) - shiftY L w
          else map_y_into_domain L t0 - w) ∧
      ∀ᶠ t in nhds t0,
        min ((map_y_into_domain L t - w) ^ 2)
          ((shiftY L (map_y_into_domain L t) - shiftY L w) ^ 2) = (t - K) ^ 2 := by
  have hu := map_mem_Ico L t0 hL
  obtain ⟨hsel_abs, ms, hms⟩ := sel_bound L (map_y_into_domain L t0) w hL hu hw htie
  obtain ⟨mu, hmu⟩ := map_sub_int L t0
  set sel := (if (shiftY L (map_y_into_domain L t0) - shiftY L w) ^ 2 <
      (map_y_into_domain L t0 - w) ^ 2
    then shiftY L (map_y_into_domain L t0) - shiftY L w
    else map_y_into_domain L t0 - w) with hsel_def
  refine ⟨t0 - sel, by ring, ?_⟩
  have hKm : t0 - w - sel = L * (mu + ms) := by
    rw [hms, hmu]
    ring
  rw [Metric.eventually_nhds_iff]
  refine ⟨(L / 2 - |sel|) / 2, by linarith, fun t ht => ?_⟩
  rw [Real.dist_eq] at ht
  have htK : |t - (t0 - sel)| < L / 2 := by
    have h1 : |t - (t0 - sel)| ≤ |t - t0| + |sel| := by
      have := abs_add (t - t0) sel
      calc |t - (t0 - sel)| = |(t - t0) + sel| := by ring_nf
        _ ≤ |t - t0| + |sel| := abs_add _ _
    linarith
  rw [minimage_rho L w t hL hw]
  have hrmodtK : rmod (t - w) L = rmod (t - (t0 - sel)) L := by
    rw [show t - w = (t - (t0 - sel)) + L * ((mu + ms : ℤ) : ℝ) from by push_cast; linarith,
      rmod_add_int _ _ hL.ne']
  rcases le_or_lt 0 (t - (t0 - sel)) with hc | hc
  · have hlt : t - (t0 - sel) < L / 2 := by
      have := abs_of_nonneg hc
      linarith [htK, this.symm.le, this ▸ htK]
    rw [hrmodtK, rmod_eq_self _ L hL hc (by linarith), min_eq_left (by linarith)]
  · have hgt : -(L / 2) < t - (t0 - sel) := by
      have := abs_of_neg hc
      have h2 : -(t - (t0 - sel)) < L / 2 := this ▸ htK
      linarith
    have hr2 : rmod (t - (t0 - sel)) L = t - (t0 - sel) + L := by
      rw [show t - (t0 - sel) = (t - (t0 - sel) + L) + L * (-1 : ℤ) from by push_cast; ring,
        rmod_add_int _ _ hL.ne',
        rmod_eq_self _ L hL (by linarith) (by linarith)]
      ring
    rw [hrmodtK, hr2, min_eq_right (by linarith),
      show L - (t - (t0 - sel) + L) = -(t - (t0 - sel)) from by ring]
    ring

/-! ## Exact derivative of the periodic pairwise energy -/

theorem hasDerivAt_pairsumRS_x {n : ℕ} (eps L : ℝ) (x y : Fin n → ℝ) (k : Fin n)
    (hd : ∀ a b : Fin n, a ≠ b → calculate_Rij L x (mapped L y) a b ≠ 0) :
    HasDerivAt (fun t => msum (zeroDiag (VeeRS eps L (Function.update x k t) y)))
      (gradVeeXRS eps L x y k) (x k) := by
  have hterm : ∀ a b : Fin n,
      HasDerivAt (fun t => zeroDiag (VeeRS eps L (Function.update x k t) y) a b)
        (if a = b then 0 else
          if b = k then -(1 / 2 * qe ^ 2 / (4 * Real.pi * eps0) * (x k - x a)) /
            calculate_Rij L x (mapped L y) a b ^ 3
          else if a = k then -(1 / 2 * qe ^ 2 / (4 * Real.pi * eps0) * (x k - x b)) /
            calculate_Rij L x (mapped L y) a b ^ 3
          else 0) (x k) := by
    intro a b
    by_cases hab : a = b
    · rw [if_pos hab]
      have hfun : (fun t => zeroDiag (VeeRS eps L (Function.update x k t) y) a b) =
          fun _ => 0 := by
        funext t
        rw [zeroDiag, if_pos hab]
      rw [hfun]
      exact hasDerivAt_const _ _
    · rw [if_neg hab]
      have hfun0 : (fun t => zeroDiag (VeeRS eps L (Function.update x k t) y) a b) =
          fun t => 1 / 2 * qe ^ 2 / (4 * Real.pi * eps0) *
            (1 / calculate_Rij L (Function.update x k t) (mapped L y) a b) := by
        funext t
        rw [zeroDiag, if_neg hab, VeeRS, RijEpsRS, if_neg hab]
      rw [hfun0]
      have hpos := calculate_Rij_arg_pos (hd a b hab)
      by_cases hbk : b = k
      · rw [if_pos hbk]
        have hak : a ≠ k := fun h => hab (h.trans hbk.symm)
        have h2 : (x b - x a) ^ 2 = (x k - x a) ^ 2 := by rw [hbk]
        rw [h2] at hpos
        refine hasDerivAt_coulomb_slot _
          (min ((mapped L y a - mapped L y b) ^ 2)
            ((shiftY L (mapped L y a) - shiftY L (mapped L y b)) ^ 2)) (x a) (x k)
          (fun t => calculate_Rij L (Function.update x k t) (mapped L y) a b)
          (by linarith) ?_ ?_
        · intro t
          show calculate_Rij L (Function.update x k t) (mapped L y) a b = _
          rw [calculate_Rij_eq_sqrt_min, hbk, Function.update_same, Function.update_noteq hak]
          congr 1
          ring
        · rw [calculate_Rij_eq_sqrt_min]
          congr 1
          rw [hbk]
          ring
      · rw [if_neg hbk]
        by_cases hak : a = k
        · rw [if_pos hak]
          have hbk' : b ≠ k := fun h => hab (hak.trans h.symm)
          have h2 : (x b - x a) ^ 2 = (x k - x b) ^ 2 := by rw [hak]; ring
          rw [h2] at hpos
          refine hasDerivAt_coulomb_slot _
            (min ((mapped L y a - mapped L y b) ^ 2)
              ((shiftY L (mapped L y a) - shiftY L (mapped L y b)) ^ 2)) (x b) (x k)
            (fun t => calculate_Rij L (Function.update x k t) (mapped L y) a b)
            (by linarith) ?_ ?_
          · intro t
            show calculate_Rij L (Function.update x k t) (mapped L y) a b = _
            rw [calculate_Rij_eq_sqrt_min, hak, Function.update_same,
              Function.update_noteq hbk']
            congr 1
            ring
          · rw [calculate_Rij_eq_sqrt_min]
            congr 1
            rw [hak]
            ring
        · rw [if_neg hak]
          have hfun : (fun t => 1 / 2 * qe ^ 2 / (4 * Real.pi * eps0) *
              (1 / calculate_Rij L (Function.update x k t) (mapped L y) a b)) =
              fun _ => 1 / 2 * qe ^ 2 / (4 * Real.pi * eps0) *
                (1 / calculate_Rij L x (mapped L y) a b) := by
            funext t
            rw [show calculate_Rij L (Function.update x k t) (mapped L y) a b =
                calculate_Rij L x (mapped L y) a b from by
              unfold calculate_Rij Rij Rij_shifted
              rw [Function.update_noteq hak, Function.update_noteq hbk]]
          rw [hfun]
          exact hasDerivAt_const _ _
  have hsum := HasDerivAt.sum (u := Finset.univ)
    (A := fun a t => ∑ b : Fin n, zeroDiag (VeeRS eps L (Function.update x k t) y) a b)
    (x := x k) (fun a _ => HasDerivAt.sum (fun b _ => hterm a b))
  have hval : (∑ a : Fin n, ∑ b : Fin n,
      (if a = b then 0 else
        if b = k then -(1 / 2 * qe ^ 2 / (4 * Real.pi * eps0) * (x k - x a)) /
          calculate_Rij L x (mapped L y) a b ^ 3
        else if a = k then -(1 / 2 * qe ^ 2 / (4 * Real.pi * eps0) * (x k - x b)) /
          calculate_Rij L x (mapped L y) a b ^ 3
        else 0)) = gradVeeXRS eps L x y k := by
    rw [double_sum_offdiag k (fun a => -(1 / 2 * qe ^ 2 / (4 * Real.pi * eps0) * (x k - x a)))
      (fun a b => calculate_Rij L x (mapped L y) a b ^ 3) (fun a b => by
        show calculate_Rij L x (mapped L y) a b ^ 3 = calculate_Rij L x (mapped L y) b a ^ 3
        rw [calculate_Rij_symm])]
    unfold gradVeeXRS
    refine Finset.sum_congr rfl fun a _ => ?_
    by_cases hak : a = k
    · simp [zeroDiag, hak]
    · simp only [zeroDiag, RijEpsRS, hak, if_neg hak, if_false]
      ring
  rw [← hval]
  exact hsum

theorem hasDerivAt_pairsumRS_y {n : ℕ} (eps L : ℝ) (x y : Fin n → ℝ) (k : Fin n)
    (hL : 0 < L)
    (hd : ∀ a b : Fin n, a ≠ b → calculate_Rij L x (mapped L y) a b ≠ 0)
    (htie : ∀ a b : Fin n, a ≠ b → |mapped L y a - mapped L y b| ≠ L / 2) :
    HasDerivAt (fun t => msum (zeroDiag (VeeRS eps L x (Function.update y k t))))
      (gradVeeYRS eps L x y k) (y k) := by
  have hterm : ∀ a b : Fin n,
      HasDerivAt (fun t => zeroDiag (VeeRS eps L x (Function.update y k t)) a b)
        (if a = b then 0 else
          if b = k then
            -(1 / 2 * qe ^ 2 / (4 * Real.pi * eps0) * calculate_YiYj L x (mapped L y) k a) /
              calculate_Rij L x (mapped L y) a b ^ 3
          else if a = k then
            -(1 / 2 * qe ^ 2 / (4 * Real.pi * eps0) * calculate_YiYj L x (mapped L y) k b) /
              calculate_Rij L x (mapped L y) a b ^ 3
          else 0) (y k) := by
    intro a b
    by_cases hab : a = b
    · rw [if_pos hab]
      have hfun : (fun t => zeroDiag (VeeRS eps L x (Function.update y k t)) a b) =
          fun _ => 0 := by
        funext t
        rw [zeroDiag, if_pos hab]
      rw [hfun]
      exact hasDerivAt_const _ _
    · rw [if_neg hab]
      have hfun0 : (fun t => zeroDiag (VeeRS eps L x (Function.update y k t)) a b) =
          fun t => 1 / 2 * qe ^ 2 / (4 * Real.pi * eps0) *
            (1 / RijEpsRS eps L x (mapped L (Function.update y k t)) a b) := by
        funext t
        rw [zeroDiag, if_neg hab, VeeRS]
      rw [hfun0]
      by_cases hbk : b = k
      · rw [if_pos hbk]
        have hak : a ≠ k := fun h => hab (h.trans hbk.symm)
        have htie' : |map_y_into_domain L (y k) - mapped L y a| ≠ L / 2 := by
          have h := htie k a fun h => hak h.symm
          intro hc
          exact h hc
        obtain ⟨K, hKsel, hev⟩ :=
          minimage_local L (mapped L y a) (y k) hL (map_mem_Ico L (y a) hL) htie'
        have hfun : ∀ t, RijEpsRS eps L x (mapped L (Function.update y k t)) a b =
            Real.sqrt ((x b - x a) ^ 2 +
              min ((map_y_into_domain L t - mapped L y a) ^ 2)
                ((shiftY L (map_y_into_domain L t) - shiftY L (mapped L y a)) ^ 2)) := by
          intro t
          rw [RijEpsRS, if_neg hab, calculate_Rij_eq_sqrt_min]
          have ha' : mapped L (Function.update y k t) a = mapped L y a := by
            unfold mapped
            rw [Function.update_noteq hak]
          have hb' : mapped L (Function.update y k t) b = map_y_into_domain L t := by
            unfold mapped
            rw [hbk, Function.update_same]
          rw [ha', hb',
            show (mapped L y a - map_y_into_domain L t) ^ 2 =
              (map_y_into_domain L t - mapped L y a) ^ 2 from by ring,
            show (shiftY L (mapped L y a) - shiftY L (map_y_into_domain L t)) ^ 2 =
              (shiftY L (map_y_into_domain L t) - shiftY L (mapped L y a)) ^ 2 from by ring]
        have hfeq : (fun t => 1 / 2 * qe ^ 2 / (4 * Real.pi * eps0) *
            (1 / RijEpsRS eps L x (mapped L (Function.update y k t)) a b)) =ᶠ[nhds (y k)]
            fun t => 1 / 2 * qe ^ 2 / (4 * Real.pi * eps0) *
              (1 / Real.sqrt ((x b - x a) ^ 2 + (t - K) ^ 2)) := by
          refine hev.mono fun t ht => ?_
          simp only [hfun t, ht]
        have hself := hev.self_of_nhds
        have hcalc : calculate_Rij L x (mapped L y) a b =
            Real.sqrt ((x b - x a) ^ 2 + (y k - K) ^ 2) := by
          rw [calculate_Rij_eq_sqrt_min,
            show (mapped L y a - mapped L y b) ^ 2 =
              (map_y_into_domain L (y k) - mapped L y a) ^ 2 from by
              rw [hbk]; unfold mapped; ring,
            show (shiftY L (mapped L y a) - shiftY L (mapped L y b)) ^ 2 =
              (shiftY L (map_y_into_domain L (y k)) - shiftY L (mapped L y a)) ^ 2 from by
              rw [hbk]; unfold mapped; ring,
            hself]
        have hq : 0 < (x b - x a) ^ 2 + (y k - K) ^ 2 := by
          have h2 := hd a b hab
          rw [hcalc] at h2
          rcases lt_or_le 0 ((x b - x a) ^ 2 + (y k - K) ^ 2) with h | h
          · exact h
          · exact absurd (Real.sqrt_eq_zero_of_nonpos h) h2
        have hder := (hasDerivAt_inv_sqrt (1 / 2 * qe ^ 2 / (4 * Real.pi * eps0))
          ((x b - x a) ^ 2) K (y k) hq).congr_of_eventuallyEq hfeq
        have hYY : y k - K = calculate_YiYj L x (mapped L y) k a := by
          rw [hKsel]
          unfold calculate_YiYj
          exact if_congr ((shifted_lt_standard_iff L x (mapped L y) k a).symm) rfl rfl
        rw [← hYY, hcalc]
        exact hder
      · rw [if_neg hbk]
        by_cases hak : a = k
        · rw [if_pos hak]
          have hbk' : b ≠ k := fun h => hab (hak.trans h.symm)
          have htie' : |map_y_into_domain L (y k) - mapped L y b| ≠ L / 2 := by
            have h := htie k b fun h => hbk' h.symm
            intro hc
            exact h hc
          obtain ⟨K, hKsel, hev⟩ :=
            minimage_local L (mapped L y b) (y k) hL (map_mem_Ico L (y b) hL) htie'
          have hfun : ∀ t, RijEpsRS eps L x (mapped L (Function.update y k t)) a b =
              Real.sqrt ((x b - x a) ^ 2 +
                min ((map_y_into_domain L t - mapped L y b) ^ 2)
                  ((shiftY L (map_y_into_domain L t) - shiftY L (mapped L y b)) ^ 2)) := by
            intro t
            rw [RijEpsRS, if_neg hab, calculate_Rij_eq_sqrt_min]
            have ha' : mapped L (Function.update y k t) a = map_y_into_domain L t := by
              unfold mapped
              rw [hak, Function.update_same]
            have hb' : mapped L (Function.update y k t) b = mapped L y b := by
              unfold mapped
              rw [Function.update_noteq hbk']
            rw [ha', hb']
          have hfeq : (fun t => 1 / 2 * qe ^ 2 / (4 * Real.pi * eps0) *
              (1 / RijEpsRS eps L x (mapped L (Function.update y k t)) a b)) =ᶠ[nhds (y k)]
              fun t => 1 / 2 * qe ^ 2 / (4 * Real.pi * eps0) *
                (1 / Real.sqrt ((x b - x a) ^ 2 + (t - K) ^ 2)) := by
            refine hev.mono fun t ht => ?_
            simp only [hfun t, ht]
          have hself := hev.self_of_nhds
          have hcalc : calculate_Rij L x (mapped L y) a b =
              Real.sqrt ((x b - x a) ^ 2 + (y k - K) ^ 2) := by
            rw [calculate_Rij_eq_sqrt_min,
              show (mapped L y a - mapped L y b) ^ 2 =
                (map_y_into_domain L (y k) - mapped L y b) ^ 2 from by rw [hak]; rfl,
              show (shiftY L (mapped L y a) - shiftY L (mapped L y b)) ^ 2 =
                (shiftY L (map_y_into_domain L (y k)) - shiftY L (mapped L y b)) ^ 2 from by
                rw [hak]; rfl,
              hself]
          have hq : 0 < (x b - x a) ^ 2 + (y k - K) ^ 2 := by
            have h2 := hd a b hab
            rw [hcalc] at h2
            rcases lt_or_le 0 ((x b - x a) ^ 2 + (y k - K) ^ 2) with h | h
            · exact h
            · exact absurd (Real.sqrt_eq_zero_of_nonpos h) h2
          have hder := (hasDerivAt_inv_sqrt (1 / 2 * qe ^ 2 / (4 * Real.pi * eps0))
            ((x b - x a) ^ 2) K (y k) hq).congr_of_eventuallyEq hfeq
          have hYY : y k - K = calculate_YiYj L x (mapped L y) k b := by
            rw [hKsel]
            unfold calculate_YiYj
            exact if_congr ((shifted_lt_standard_iff L x (mapped L y) k b).symm) rfl rfl
          rw [← hYY, hcalc]
          exact hder
        · rw [if_neg hak]
          have hfun : (fun t => 1 / 2 * qe ^ 2 / (4 * Real.pi * eps0) *
              (1 / RijEpsRS eps L x (mapped L (Function.update y k t)) a b)) =
              fun _ => 1 / 2 * qe ^ 2 / (4 * Real.pi * eps0) *
                (1 / RijEpsRS eps L x (mapped L y) a b) := by
            funext t
            have ha' : mapped L (Function.update y k t) a = mapped L y a := by
              unfold mapped
              rw [Function.update_noteq hak]
            have hb' : mapped L (Function.update y k t) b = mapped L y b := by
              unfold mapped
              rw [Function.update_noteq hbk]
            rw [RijEpsRS, RijEpsRS, if_neg hab, if_neg hab]
            unfold calculate_Rij Rij Rij_shifted
            rw [ha', hb']
          rw [hfun]
          exact hasDerivAt_const _ _
  have hsum := HasDerivAt.sum (u := Finset.univ)
    (A := fun a t => ∑ b : Fin n, zeroDiag (VeeRS eps L x (Function.update y k t)) a b)
    (x := y k) (fun a _ => HasDerivAt.sum (fun b _ => hterm a b))
  have hval : (∑ a : Fin n, ∑ b : Fin n,
      (if a = b then 0 else
        if b = k then
          -(1 / 2 * qe ^ 2 / (4 * Real.pi * eps0) * calculate_YiYj L x (mapped L y) k a) /
            calculate_Rij L x (mapped L y) a b ^ 3
        else if a = k then
          -(1 / 2 * qe ^ 2 / (4 * Real.pi * eps0) * calculate_YiYj L x (mapped L y) k b) /
            calculate_Rij L x (mapped L y) a b ^ 3
        else 0)) = gradVeeYRS eps L x y k := by
    rw [double_sum_offdiag k
      (fun a => -(1 / 2 * qe ^ 2 / (4 * Real.pi * eps0) * calculate_YiYj L x (mapped L y) k a))
      (fun a b => calculate_Rij L x (mapped L y) a b ^ 3) (fun a b => by
        show calculate_Rij L x (mapped L y) a b ^ 3 = calculate_Rij L x (mapped L y) b a ^ 3
        rw [calculate_Rij_symm])]
    unfold gradVeeYRS
    refine Finset.sum_congr rfl fun a _ => ?_
    by_cases hak : a = k
    · simp [zeroDiag, hak]
    · simp only [zeroDiag, RijEpsRS, hak, if_neg hak, if_false]
      rw [calculate_YiYj_antisymm L x (mapped L y) k a]
      ring
  rw [← hval]
  exact hsum

/-! ## C1 (amended): exact analytic gradients -/

/-- C1 amended: for every position vector at which the interpolated
field is differentiable and all pairwise distances (minimum-image
distances of the mapped coordinates, for the periodic variant) are
nonzero, and — for the periodic variant only — no pair of mapped
y-coordinates is separated by exactly half the domain length
`box_y_length` (at such wrap ties the periodic `Vtotal` is not
differentiable in y), `grad_total` is the exact analytic derivative of
`Vtotal`: component `2k` is the derivative in the charge's x-coordinate
and component `2k+1` the derivative in its y-coordinate, for both the
unconstrained and the periodic variant. -/
theorem C1_grad_total_exact_amended {n : ℕ} (V2 dVdx2 dVdy2 : ℝ → ℝ → ℝ)
    (V1 dV1 : ℝ → ℝ) (L : ℝ) (r : Fin (2 * n) → ℝ) (k : Fin n)
    (hL : 0 < L)
    (hd2 : ∀ a b : Fin n, a ≠ b → Rij (xs r) (ys r) a b ≠ 0)
    (hx2 : HasDerivAt (fun t => V2 t (ys r k)) (dVdx2 (xs r k) (ys r k)) (xs r k))
    (hy2 : HasDerivAt (fun t => V2 (xs r k) t) (dVdy2 (xs r k) (ys r k)) (ys r k))
    (hd1 : ∀ a b : Fin n, a ≠ b → calculate_Rij L (xs r) (mapped L (ys r)) a b ≠ 0)
    (htie : ∀ a b : Fin n, a ≠ b → |mapped L (ys r) a - mapped L (ys r) b| ≠ L / 2)
    (hx1 : HasDerivAt V1 (dV1 (xs r k)) (xs r k)) :
    HasDerivAt (fun t => Vtotal V2 (Function.update r (ix k) t))
      (grad_total dVdx2 dVdy2 r (ix k)) (r (ix k)) ∧
    HasDerivAt (fun t => Vtotal V2 (Function.update r (iy k) t))
      (grad_total dVdx2 dVdy2 r (iy k)) (r (iy k)) ∧
    HasDerivAt (fun t => VtotalRS V1 L (Function.update r (ix k) t))
      (grad_totalRS dV1 L r (ix k)) (r (ix k)) ∧
    HasDerivAt (fun t => VtotalRS V1 L (Function.update r (iy k) t))
      (grad_totalRS dV1 L r (iy k)) (r (iy k)) := by
  have hqe := qe_pos.ne'
  refine ⟨?_, ?_, ?_, ?_⟩
  · have hrw : (fun t => Vtotal V2 (Function.update r (ix k) t)) =
        fun t => (Velectrostatic V2 (Function.update (xs r) k t) (ys r) +
          msum (zeroDiag (Vee 1e-15 (Function.update (xs r) k t) (ys r)))) / qe := by
      funext t
      rw [Vtotal, VtotalE, xs_update_ix, ys_update_ix]
    rw [hrw]
    have hA : HasDerivAt (fun t => Velectrostatic V2 (Function.update (xs r) k t) (ys r))
        (qe * dVdx2 (xs r k) (ys r k)) (xs r k) := by
      have h := (hasDerivAt_sum_update (fun i s => V2 s (ys r i)) (xs r) k
        (dVdx2 (xs r k) (ys r k)) hx2).const_mul qe
      have hfun : (fun t => Velectrostatic V2 (Function.update (xs r) k t) (ys r)) =
          fun t => qe * ∑ i : Fin n, V2 (Function.update (xs r) k t i) (ys r i) := by
        funext t
        rw [Velectrostatic]
      rw [hfun]
      exact h
    have hB := hasDerivAt_pairsum_x 1e-15 (xs r) (ys r) k hd2
    have hAB := (hA.add hB).div_const qe
    have hval : grad_total dVdx2 dVdy2 r (ix k) =
        (qe * dVdx2 (xs r k) (ys r k) + gradVeeX 1e-15 (xs r) (ys r) k) / qe := by
      rw [grad_total_ix]
      field_simp
      ring
    rw [hval]
    exact hAB
  · have hrw : (fun t => Vtotal V2 (Function.update r (iy k) t)) =
        fun t => (Velectrostatic V2 (xs r) (Function.update (ys r) k t) +
          msum (zeroDiag (Vee 1e-15 (xs r) (Function.update (ys r) k t)))) / qe := by
      funext t
      rw [Vtotal, VtotalE, xs_update_iy, ys_update_iy]
    rw [hrw]
    have hA : HasDerivAt (fun t => Velectrostatic V2 (xs r) (Function.update (ys r) k t))
        (qe * dVdy2 (xs r k) (ys r k)) (ys r k) := by
      have h := (hasDerivAt_sum_update (fun i s => V2 (xs r i) s) (ys r) k
        (dVdy2 (xs r k) (ys r k)) hy2).const_mul qe
      have hfun : (fun t => Velectrostatic V2 (xs r) (Function.update (ys r) k t)) =
          fun t => qe * ∑ i : Fin n, V2 (xs r i) (Function.update (ys r) k t i) := by
        funext t
        rw [Velectrostatic]
      rw [hfun]
      exact h
    have hB := hasDerivAt_pairsum_y 1e-15 (xs r) (ys r) k hd2
    have hAB := (hA.add hB).div_const qe
    have hval : grad_total dVdx2 dVdy2 r (iy k) =
        (qe * dVdy2 (xs r k) (ys r k) + gradVeeY 1e-15 (xs r) (ys r) k) / qe := by
      rw [grad_total_iy]
      field_simp
      ring
    rw [hval]
    exact hAB
  · have hrw : (fun t => VtotalRS V1 L (Function.update r (ix k) t)) =
        fun t => (qe * ∑ i : Fin n, V1 (Function.update (xs r) k t i) +
          msum (zeroDiag (VeeRS 1e-15 L (Function.update (xs r) k t) (ys r)))) / qe := by
      funext t
      rw [VtotalRS, VtotalRSE, xs_update_ix, ys_update_ix]
    rw [hrw]
    have hA : HasDerivAt (fun t => qe * ∑ i : Fin n, V1 (Function.update (xs r) k t i))
        (qe * dV1 (xs r k)) (xs r k) := by
      have h := (hasDerivAt_sum_update (fun _ s => V1 s) (xs r) k
        (dV1 (xs r k)) hx1).const_mul qe
      exact h
    have hB := hasDerivAt_pairsumRS_x 1e-15 L (xs r) (ys r) k hd1
    have hAB := (hA.add hB).div_const qe
    have hval : grad_totalRS dV1 L r (ix k) =
        (qe * dV1 (xs r k) + gradVeeXRS 1e-15 L (xs r) (ys r) k) / qe := by
      rw [grad_totalRS_ix]
      field_simp
      ring
    rw [hval]
    exact hAB
  · have hrw : (fun t => VtotalRS V1 L (Function.update r (iy k) t)) =
        fun t => (qe * ∑ i : Fin n, V1 (xs r i) +
          msum (zeroDiag (VeeRS 1e-15 L (xs r) (Function.update (ys r) k t)))) / qe := by
      funext t
      rw [VtotalRS, VtotalRSE, xs_update_iy, ys_update_iy]
    rw [hrw]
    have hA : HasDerivAt (fun _ : ℝ => qe * ∑ i : Fin n, V1 (xs r i)) 0 (ys r k) :=
      hasDerivAt_const _ _
    have hB := hasDerivAt_pairsumRS_y 1e-15 L (xs r) (ys r) k hL hd1 htie
    have hAB := (hA.add hB).div_const qe
    have hval : grad_totalRS dV1 L r (iy k) =
        (0 + gradVeeYRS 1e-15 L (xs r) (ys r) k) / qe := by
      rw [grad_totalRS_iy]
      field_simp
    rw [hval]
    exact hAB

theorem xs_rUnit (i : Fin 2) : xs rUnit i = if i.val = 1 then 1 else 0 := by
  show (if 2 * i.val = 2 then (1 : ℝ) else 0) = if i.val = 1 then 1 else 0
  by_cases h : i.val = 1
  · rw [if_pos (by omega), if_pos h]
  · rw [if_neg (by omega), if_neg h]

theorem ys_rUnit (i : Fin 2) : ys rUnit i = 0 := by
  show (if 2 * i.val + 1 = 2 then (1 : ℝ) else 0) = 0
  rw [if_neg (by omega)]

theorem mapped_rUnit : mapped 2 (ys rUnit) = ys rUnit := by
  funext i
  unfold mapped
  rw [ys_rUnit i, map_y_eq,
    rmod_eq_self (0 + 2 / 2) 2 (by norm_num) (by norm_num) (by norm_num)]
  norm_num

theorem Rij_rUnit : ∀ a b : Fin 2, a ≠ b → Rij (xs rUnit) (ys rUnit) a b = 1 := by
  intro a b hab
  have hab' : a.val ≠ b.val := fun h => hab (Fin.ext h)
  have ha := a.isLt
  have hb := b.isLt
  have hvals : ((if b.val = 1 then (1 : ℝ) else 0) - if a.val = 1 then 1 else 0) ^ 2 +
      ((0 : ℝ) - 0) ^ 2 = 1 := by
    by_cases h1 : a.val = 1 <;> by_cases h2 : b.val = 1
    · exact absurd (h1.trans h2.symm) hab'
    · rw [if_pos h1, if_neg h2]
      norm_num
    · rw [if_neg h1, if_pos h2]
      norm_num
    · exact absurd (by omega) hab'
  unfold Rij
  rw [xs_rUnit, xs_rUnit, ys_rUnit, ys_rUnit, hvals]
  exact Real.sqrt_one

/-- C1 witness: the amended exactness statement at a concrete two-charge
configuration in a zero field, for both variants. -/
theorem C1_grad_total_exact_amended_witness :
    HasDerivAt (fun t => Vtotal Vzero2 (Function.update rUnit (ix 0) t))
      (grad_total Vzero2 Vzero2 rUnit (ix 0)) (rUnit (ix 0)) ∧
    HasDerivAt (fun t => Vtotal Vzero2 (Function.update rUnit (iy 0) t))
      (grad_total Vzero2 Vzero2 rUnit (iy 0)) (rUnit (iy 0)) ∧
    HasDerivAt (fun t => VtotalRS Vzero1 2 (Function.update rUnit (ix 0) t))
      (grad_totalRS Vzero1 2 rUnit (ix 0)) (rUnit (ix 0)) ∧
    HasDerivAt (fun t => VtotalRS Vzero1 2 (Function.update rUnit (iy 0) t))
      (grad_totalRS Vzero1 2 rUnit (iy 0)) (rUnit (iy 0)) := by
  have hstd : ∀ a b : Fin 2, a ≠ b → Rij (xs rUnit) (ys rUnit) a b ≠ 0 := by
    intro a b hab
    rw [Rij_rUnit a b hab]
    norm_num
  refine C1_grad_total_exact_amended Vzero2 Vzero2 Vzero2 Vzero1 Vzero1 2 rUnit 0
    (by norm_num) hstd (hasDerivAt_const _ _) (hasDerivAt_const _ _) ?_ ?_
    (hasDerivAt_const _ _)
  · intro a b hab
    rw [show calculate_Rij 2 (xs rUnit) (mapped 2 (ys rUnit)) a b =
        min (Rij (xs rUnit) (ys rUnit) a b) (Rij_shifted 2 (xs rUnit) (ys rUnit) a b) from by
      rw [calculate_Rij, mapped_rUnit]]
    have hsh : Rij_shifted 2 (xs rUnit) (ys rUnit) a b = Rij (xs rUnit) (ys rUnit) a b := by
      unfold Rij_shifted Rij shiftY
      rw [ys_rUnit, ys_rUnit]
      norm_num
    rw [hsh, min_self, Rij_rUnit a b hab]
    norm_num
  · intro a b hab
    rw [mapped_rUnit, ys_rUnit, ys_rUnit]
    norm_num

/-! ## C1 counterexample: a wrap tie breaks differentiability -/

theorem rTie_eval :
    xs rTie 0 = 0 ∧ xs rTie 1 = 0 ∧ ys rTie 0 = -(1 / 2) ∧ ys rTie 1 = 1 / 2 := by
  refine ⟨?_, ?_, ?_, ?_⟩ <;> norm_num [xs, ys, ix, iy, rTie]

theorem mapped_rTie : mapped 2 (ys rTie) = ys rTie := by
  obtain ⟨_, _, h2, h3⟩ := rTie_eval
  funext i
  obtain ⟨iv, hiv⟩ := i
  interval_cases iv
  · show map_y_into_domain 2 (ys rTie 0) = ys rTie 0
    rw [h2, map_y_eq,
      rmod_eq_self (-(1 / 2) + 2 / 2) 2 (by norm_num) (by norm_num) (by norm_num)]
    norm_num
  · show map_y_into_domain 2 (ys rTie 1) = ys rTie 1
    rw [h3, map_y_eq,
      rmod_eq_self (1 / 2 + 2 / 2) 2 (by norm_num) (by norm_num) (by norm_num)]
    norm_num

theorem shiftY_half : shiftY 2 (-(1 / 2) : ℝ) = -(1 / 2) ∧ shiftY 2 (1 / 2 : ℝ) = 1 / 2 - 2 :=
  ⟨by rw [shiftY, if_neg (by norm_num)], by rw [shiftY, if_pos (by norm_num)]⟩

theorem Rij_rTie : Rij (xs rTie) (ys rTie) 0 1 = 1 ∧
    Rij_shifted 2 (xs rTie) (ys rTie) 0 1 = 1 := by
  obtain ⟨h0, h1, h2, h3⟩ := rTie_eval
  obtain ⟨hs1, hs2⟩ := shiftY_half
  constructor
  · unfold Rij
    rw [h0, h1, h2, h3, show ((0 : ℝ) - 0) ^ 2 + (-(1 / 2) - 1 / 2) ^ 2 = 1 by norm_num]
    exact Real.sqrt_one
  · unfold Rij_shifted
    rw [h0, h1, h2, h3, hs1, hs2,
      show ((0 : ℝ) - 0) ^ 2 + (-(1 / 2) - (1 / 2 - 2)) ^ 2 = 1 by norm_num]
    exact Real.sqrt_one

theorem calcRij_rTie :
    ∀ a b : Fin 2, a ≠ b → calculate_Rij 2 (xs rTie) (mapped 2 (ys rTie)) a b = 1 := by
  obtain ⟨hstd, hsh⟩ := Rij_rTie
  have h01 : calculate_Rij 2 (xs rTie) (mapped 2 (ys rTie)) 0 1 = 1 := by
    rw [mapped_rTie, calculate_Rij, hstd, hsh, min_self]
  have h10 : calculate_Rij 2 (xs rTie) (mapped 2 (ys rTie)) 1 0 = 1 := by
    rw [calculate_Rij_symm]
    exact h01
  intro a b hab
  obtain ⟨av, ha⟩ := a
  obtain ⟨bv, hb⟩ := b
  interval_cases av <;> interval_cases bv
  · exact absurd rfl hab
  · exact h01
  · exact h10
  · exact absurd rfl hab

theorem YiYj_rTie : calculate_YiYj 2 (xs rTie) (mapped 2 (ys rTie)) 0 1 = -1 := by
  obtain ⟨hstd, hsh⟩ := Rij_rTie
  obtain ⟨_, _, h2, h3⟩ := rTie_eval
  rw [mapped_rTie]
  unfold calculate_YiYj
  rw [if_neg (by rw [hstd, hsh]; exact lt_irrefl 1), h2, h3]
  norm_num

theorem gradTie_eval :
    grad_totalRS Vzero1 2 rTie (iy 1) = -(qe ^ 2 / (4 * Real.pi * eps0)) / qe := by
  rw [grad_totalRS_iy]
  have h : gradVeeYRS 1e-15 2 (xs rTie) (ys rTie) 1 = -(qe ^ 2 / (4 * Real.pi * eps0)) := by
    unfold gradVeeYRS
    rw [Fin.sum_univ_two]
    simp only [zeroDiag, if_pos rfl, if_neg (show ¬(0 : Fin 2) = 1 by decide)]
    rw [YiYj_rTie, show RijEpsRS 1e-15 2 (xs rTie) (mapped 2 (ys rTie)) 0 1 =
      calculate_Rij 2 (xs rTie) (mapped 2 (ys rTie)) 0 1 from by
        rw [RijEpsRS, if_neg (by decide)],
      calcRij_rTie 0 1 (by decide)]
    norm_num
  rw [h]
  ring

/-- On the right of the tie point, the periodic total energy follows the
wrapped branch. -/
theorem fTie_eval (t : ℝ) (ht : t ∈ Set.Ico (1 / 2 : ℝ) 1) :
    VtotalRS Vzero1 2 (Function.update rTie (iy 1) t) =
      (1 / 2 * qe ^ 2 / (4 * Real.pi * eps0) * (3 / 2 - t)⁻¹ +
        1 / 2 * qe ^ 2 / (4 * Real.pi * eps0) * (3 / 2 - t)⁻¹) / qe := by
  obtain ⟨ht1, ht2⟩ := ht
  obtain ⟨h0, h1, h2, h3⟩ := rTie_eval
  rw [VtotalRS, VtotalRSE, xs_update_iy, ys_update_iy]
  rw [show (∑ i : Fin 2, Vzero1 (xs rTie i)) = 0 from by
    rw [Fin.sum_univ_two]; unfold Vzero1; norm_num]
  rw [msum_zeroDiag_two]
  have hy'0 : Function.update (ys rTie) 1 t 0 = -(1 / 2) := by
    rw [Function.update_noteq (by decide)]
    exact h2
  have hy'1 : Function.update (ys rTie) 1 t 1 = t := Function.update_same _ _ _
  have hm0 : mapped 2 (Function.update (ys rTie) 1 t) 0 = -(1 / 2) := by
    unfold mapped
    rw [hy'0, map_y_eq,
      rmod_eq_self (-(1 / 2) + 2 / 2) 2 (by norm_num) (by norm_num) (by norm_num)]
    norm_num
  have hm1 : mapped 2 (Function.update (ys rTie) 1 t) 1 = t := by
    unfold mapped
    rw [hy'1, map_y_eq,
      rmod_eq_self (t + 2 / 2) 2 (by norm_num) (by linarith) (by linarith)]
    ring
  have hcalc : calculate_Rij 2 (xs rTie) (mapped 2 (Function.update (ys rTie) 1 t)) 0 1 =
      3 / 2 - t := by
    rw [calculate_Rij_eq_sqrt_min, hm0, hm1, h0, h1]
    rw [show shiftY 2 (-(1 / 2) : ℝ) = -(1 / 2) from shiftY_half.1]
    rw [show shiftY 2 t = t - 2 from by rw [shiftY, if_pos (by linarith)]]
    rw [show ((-(1 / 2) : ℝ) - (t - 2)) ^ 2 = (3 / 2 - t) ^ 2 from by ring]
    rw [show min ((-(1 / 2 : ℝ) - t) ^ 2) ((3 / 2 - t) ^ 2) = (3 / 2 - t) ^ 2 from
      min_eq_right (by nlinarith)]
    rw [show ((0 : ℝ) - 0) ^ 2 + (3 / 2 - t) ^ 2 = (3 / 2 - t) ^ 2 from by ring]
    exact Real.sqrt_sq (by linarith)
  have hM01 : VeeRS 1e-15 2 (xs rTie) (Function.update (ys rTie) 1 t) 0 1 =
      1 / 2 * qe ^ 2 / (4 * Real.pi * eps0) * (3 / 2 - t)⁻¹ := by
    rw [VeeRS, RijEpsRS, if_neg (by decide), hcalc]
    ring
  have hM10 : VeeRS 1e-15 2 (xs rTie) (Function.update (ys rTie) 1 t) 1 0 =
      1 / 2 * qe ^ 2 / (4 * Real.pi * eps0) * (3 / 2 - t)⁻¹ := by
    rw [VeeRS, RijEpsRS, if_neg (by decide), calculate_Rij_symm, hcalc]
    ring
  rw [hM01, hM10]
  ring

/-- C1 counterexample: at the concrete periodic configuration `rTie`
(two charges whose mapped y-separation is exactly half the domain length
`L = 2`), the hypotheses of the claim hold — the (zero) interpolated
field is differentiable everywhere and all pairwise minimum-image
distances are nonzero — yet `grad_total` is not the derivative of
`Vtotal` in the y-coordinate of charge 1: `Vtotal` has a kink there (its
right-sided derivative differs from the value `grad_total` reports), so
the claimed exactness fails. -/
theorem C1_grad_total_exact_counterexample :
    (∀ a b : Fin 2, a ≠ b → calculate_Rij 2 (xs rTie) (mapped 2 (ys rTie)) a b ≠ 0) ∧
    (∀ v : ℝ, HasDerivAt Vzero1 (Vzero1 v) v) ∧
    ¬ HasDerivAt (fun t => VtotalRS Vzero1 2 (Function.update rTie (iy 1) t))
      (grad_totalRS Vzero1 2 rTie (iy 1)) (rTie (iy 1)) := by
  refine ⟨?_, fun v => hasDerivAt_const _ _, ?_⟩
  · intro a b hab
    rw [calcRij_rTie a b hab]
    norm_num
  · intro habs
    have hpt : rTie (iy 1) = 1 / 2 := rTie_eval.2.2.2
    rw [hpt] at habs
    have h1 := habs.hasDerivWithinAt (s := Set.Ici (1 / 2))
    have hmem : Set.Ico (1 / 2 : ℝ) 1 ∈ nhdsWithin (1 / 2 : ℝ) (Set.Ici (1 / 2)) :=
      Ico_mem_nhdsWithin_Ici ⟨le_refl _, by norm_num⟩
    have hev : (fun t => (1 / 2 * qe ^ 2 / (4 * Real.pi * eps0) * (3 / 2 - t)⁻¹ +
        1 / 2 * qe ^ 2 / (4 * Real.pi * eps0) * (3 / 2 - t)⁻¹) / qe) =ᶠ[nhdsWithin
          (1 / 2 : ℝ) (Set.Ici (1 / 2))]
        fun t => VtotalRS Vzero1 2 (Function.update rTie (iy 1) t) :=
      Filter.eventuallyEq_of_mem hmem fun t ht => (fTie_eval t ht).symm
    have h2 := h1.congr_of_eventuallyEq hev
      (fTie_eval (1 / 2) ⟨le_refl _, by norm_num⟩).symm
    have hlin : HasDerivAt (fun t : ℝ => 3 / 2 - t) (-1) (1 / 2) := by
      have h := (hasDerivAt_id (1 / 2 : ℝ)).const_sub (3 / 2)
      simpa using h
    have hinv := hlin.inv (by norm_num : (3 / 2 - (1 / 2 : ℝ)) ≠ 0)
    have h3 := ((hinv.const_mul (1 / 2 * qe ^ 2 / (4 * Real.pi * eps0))).add
      (hinv.const_mul (1 / 2 * qe ^ 2 / (4 * Real.pi * eps0)))).div_const qe
    have h3' : HasDerivAt (fun t => (1 / 2 * qe ^ 2 / (4 * Real.pi * eps0) * (3 / 2 - t)⁻¹ +
        1 / 2 * qe ^ 2 / (4 * Real.pi * eps0) * (3 / 2 - t)⁻¹) / qe)
        (qe ^ 2 / (4 * Real.pi * eps0) / qe) (1 / 2) := by
      convert h3 using 1
      rw [show (- -1 / ((3 : ℝ) / 2 - 1 / 2) ^ 2) = 1 from by norm_num]
      ring
    have h4 := UniqueDiffWithinAt.eq_deriv _ ((uniqueDiffOn_Ici _) _ Set.left_mem_Ici)
      h2 h3'.hasDerivWithinAt
    rw [gradTie_eval, neg_div] at h4
    have h6 : 0 < qe ^ 2 / (4 * Real.pi * eps0) / qe := div_pos coulomb_pos qe_pos
    linarith

end TrapAnalysis
